import Mathlib

/-!
Verification of the QDT (QUIC Datagram Tunnel) repository.

This file gives a shallow embedding, in Lean 4, of the pure core of the
repository: the wire header codec, the AEAD cipher state
(ChaCha20-Poly1305 with counter-based nonces), the sliding replay window,
the fragmenter/reassembler, the tunnel codec combining them, the IPAM
address pool, the MTU negotiation of the connect handshake, and the token
gate of the connect handler.  Machine integers are modelled as `Nat` with
explicit `% 2 ^ w` at the points where the Go code can wrap; byte strings
are `List Nat`; Go maps used as sets are `List Nat`; fallible code returns
`Option` or `Except`.  Definitions are computable so that every statement
can be checked on concrete inputs.

Theorems about the embedding follow after all definitions.
-/

namespace QDT

/-- Byte strings are lists of naturals; each entry denotes one byte. -/
abbrev Bytes := List Nat

/-- Big-endian encoding of `v` into `w` bytes (most significant first),
as produced by `binary.BigEndian.PutUintXX`. -/
def beBytes : Nat → Nat → Bytes
  | 0, _ => []
  | w + 1, v => beBytes w (v / 256) ++ [v % 256]

/-- Big-endian decoding, as computed by `binary.BigEndian.UintXX`. -/
def beVal (l : Bytes) : Nat :=
  l.foldl (fun a b => a * 256 + b) 0

/-- Little-endian encoding of `v` into `w` bytes (least significant
first), as used by ChaCha20/Poly1305 serialization. -/
def leBytes : Nat → Nat → Bytes
  | 0, _ => []
  | w + 1, v => v % 256 :: leBytes w (v / 256)

/-- Little-endian decoding. -/
def leVal (l : Bytes) : Nat :=
  l.foldr (fun b a => a * 256 + b) 0

/-- Error taxonomy of the embedded code, one constructor per distinct
error value returned by the Go source. -/
inductive QErr where
  | invalidDatagram   -- ErrInvalidDatagram
  | badMagic          -- ErrBadMagic
  | badVersion        -- ErrBadVersion
  | sessionMismatch   -- ErrSessionMismatch
  | replay            -- ErrReplay
  | openFailed        -- chacha20poly1305 authentication failure
  | fragmentTooSmall  -- ErrFragmentTooSmall
  | fragmentOverlap   -- ErrFragmentOverlap
  | invalidTotal      -- "invalid fragment total"
  | totalTooLarge     -- "fragment total too large"
  | exceedsTotal      -- "fragment exceeds total"
  | incomplete        -- "incomplete reassembly"
  | fragmentGap       -- "fragment gap"
  | sizeMismatch      -- "fragment size mismatch"
  | unknownType       -- "unknown message type"
  | invalidMTU        -- "invalid mtu"
  | fragMTUTooSmall   -- "fragment mtu too small"
  deriving DecidableEq, Repr

/-! ## Wire header (`ParseHeader` / `WriteHeader`, pkg/qdt) -/

/-- The three magic bytes `"QDT"`. -/
def magicBytes : Bytes := [81, 68, 84]

/-- `HeaderLen = 3 + 1 + 1 + 1 + 8 + 8`. -/
def headerLen : Nat := 22

/-- `ProtocolVersion = 1`. -/
def protocolVersion : Nat := 1

/-- Message type values, from the `MessageType` enum of pkg/qdt. -/
def msgData : Nat := 0
def msgFragment : Nat := 1
def msgPing : Nat := 2
def msgPong : Nat := 3
def msgClose : Nat := 4

/-- The fixed 22-byte wire header. Field widths follow the Go struct:
`Version`, `Type`, `Flags` are bytes; `SessionID`, `Counter` are u64. -/
structure Header where
  version : Nat
  type : Nat
  flags : Nat
  sessionID : Nat
  counter : Nat
  deriving DecidableEq, Repr

/-- Well-formedness: fields fit their Go machine types. -/
def Header.WF (h : Header) : Prop :=
  h.version < 256 ∧ h.type < 256 ∧ h.flags < 256 ∧
    h.sessionID < 2 ^ 64 ∧ h.counter < 2 ^ 64

instance (h : Header) : Decidable h.WF := by
  unfold Header.WF; infer_instance

/-- `WriteHeader` serializes `h` into its 22 wire bytes (the Go function
fills a caller buffer of length ≥ 22; we return the bytes written). -/
def writeHeader (h : Header) : Bytes :=
  magicBytes ++ [h.version, h.type, h.flags] ++
    beBytes 8 h.sessionID ++ beBytes 8 h.counter

/-- `ParseHeader`: length check, magic check, version check, then field
extraction and the remainder slice. -/
def parseHeader (b : Bytes) : Except QErr (Header × Bytes) :=
  if b.length < headerLen then .error .invalidDatagram
  else if b.take 3 ≠ magicBytes then .error .badMagic
  else if b.getD 3 0 ≠ protocolVersion then .error .badVersion
  else .ok
    ({ version := b.getD 3 0
       type := b.getD 4 0
       flags := b.getD 5 0
       sessionID := beVal ((b.drop 6).take 8)
       counter := beVal ((b.drop 14).take 8) }, b.drop headerLen)

/-! ## Replay window (`ReplayWindow`, pkg/qdt)

The Go struct keeps a bitmap `bits []uint64` over offsets
`[0, size)` behind the highest marked counter `max`.  Counters are
`uint64`; the one place where the Go arithmetic can wrap is the staleness
test `counter + w.size <= w.max`, which we model with an explicit
`% 2 ^ 64`. -/

structure ReplayWindow where
  size : Nat
  max : Nat
  initialized : Bool
  bits : List Nat
  deriving Repr, DecidableEq

/-- Number of 64-bit words backing a window of `size` bits. -/
def rwWords (size : Nat) : Nat := (size + 63) / 64

/-- `NewReplayWindow` (a zero size falls back to 1024). -/
def newReplayWindow (size : Nat) : ReplayWindow :=
  let s := if size = 0 then 1024 else size
  { size := s, max := 0, initialized := false
    bits := List.replicate (rwWords s) 0 }

/-- `w.set(offset)`: `bits[offset/64] |= 1 << (offset%64)`. -/
def rwSet (bits : List Nat) (offset : Nat) : List Nat :=
  bits.set (offset / 64) (bits.getD (offset / 64) 0 ||| (1 <<< (offset % 64)))

/-- `w.isSet(offset)`. -/
def rwIsSet (bits : List Nat) (offset : Nat) : Bool :=
  bits.getD (offset / 64) 0 &&& (1 <<< (offset % 64)) != 0

/-- The body of the word-shift phase of `w.shift`: every word moves up by
`ws` words, the low `ws` words become zero. -/
def rwWordShift (bits : List Nat) (ws : Nat) : List Nat :=
  List.replicate ws 0 ++ bits.take (bits.length - ws)

/-- The body of the bit-shift phase of `w.shift`, low word first: each
word becomes `(w <<< bs) | (lower_word >>> (64-bs))` in `uint64`
arithmetic.  `carry` is the word below the current one (0 at the low
end). -/
def rwBitShift (bs : Nat) : Nat → List Nat → List Nat
  | _, [] => []
  | carry, w :: ws => (((w <<< bs) % 2 ^ 64) ||| (carry >>> (64 - bs))) :: rwBitShift bs w ws

/-- Mask the final word to `size % 64` bits (when `size % 64 ≠ 0`). -/
def rwMask (size : Nat) (bits : List Nat) : List Nat :=
  if size % 64 ≠ 0 then
    bits.set (bits.length - 1)
      (bits.getD (bits.length - 1) 0 &&& ((1 <<< (size % 64)) - 1))
  else bits

/-- The word-shift phase applied only when `delta/64 > 0`. -/
def rwShiftWordPhase (bits : List Nat) (delta : Nat) : List Nat :=
  if delta / 64 > 0 then rwWordShift bits (delta / 64) else bits

/-- The bit-shift phase applied only when `delta%64 > 0`. -/
def rwShiftBitPhase (bits : List Nat) (delta : Nat) : List Nat :=
  if delta % 64 > 0 then rwBitShift (delta % 64) 0 bits else bits

/-- `w.shift(delta)`: clear everything when `delta ≥ size`, otherwise a
word shift, a bit shift, and the final mask. -/
def rwShift (size : Nat) (bits : List Nat) (delta : Nat) : List Nat :=
  if delta ≥ size then List.replicate bits.length 0
  else rwMask size (rwShiftBitPhase (rwShiftWordPhase bits delta) delta)

/-- `w.Check(counter)`.  `counter + w.size` is `uint64` addition. -/
def rwCheck (w : ReplayWindow) (counter : Nat) : Bool :=
  if ¬ w.initialized then true
  else if (counter + w.size) % 2 ^ 64 ≤ w.max then false
  else if counter > w.max then true
  else ! rwIsSet w.bits (w.max - counter)

/-- `w.Mark(counter)`. -/
def rwMark (w : ReplayWindow) (counter : Nat) : ReplayWindow :=
  if ¬ w.initialized then
    { w with max := counter, initialized := true, bits := rwSet w.bits 0 }
  else if counter > w.max then
    { w with max := counter
             bits := rwSet (rwShift w.size w.bits (counter - w.max)) 0 }
  else if w.max - counter < w.size then
    { w with bits := rwSet w.bits (w.max - counter) }
  else w

/-- One delivery: `Check`, and `Mark` only when the check accepted. -/
def rwAdmit (w : ReplayWindow) (c : Nat) : ReplayWindow × Bool :=
  if rwCheck w c then (rwMark w c, true) else (w, false)

/-- Deliver a list of counters in order, recording each admission. -/
def rwAdmitAll (w : ReplayWindow) : List Nat → ReplayWindow × List Bool
  | [] => (w, [])
  | c :: cs =>
    let r := rwAdmit w c
    let rest := rwAdmitAll r.1 cs
    (rest.1, r.2 :: rest.2)

/-! ## AEAD cipher state (`CipherState`, pkg/qdt)

ChaCha20-Poly1305 per RFC 8439, exactly the construction used by
`golang.org/x/crypto/chacha20poly1305`: the Poly1305 key is the first 32
bytes of keystream block 0, encryption starts at block counter 1, and the
tag is computed over `aad ‖ pad ‖ ciphertext ‖ pad ‖ len(aad) ‖ len(ct)`
with little-endian 64-bit lengths. -/

/-- 32-bit rotate left. -/
def rotl32 (x n : Nat) : Nat := ((x <<< n) % 2 ^ 32) ||| (x >>> (32 - n))

/-- ChaCha20 quarter round on state words `a b c d`. -/
def chachaQR (st : List Nat) (a b c d : Nat) : List Nat :=
  let va := (st.getD a 0 + st.getD b 0) % 2 ^ 32
  let vd := rotl32 (st.getD d 0 ^^^ va) 16
  let vc := (st.getD c 0 + vd) % 2 ^ 32
  let vb := rotl32 (st.getD b 0 ^^^ vc) 12
  let va' := (va + vb) % 2 ^ 32
  let vd' := rotl32 (vd ^^^ va') 8
  let vc' := (vc + vd') % 2 ^ 32
  let vb' := rotl32 (vb ^^^ vc') 7
  (((st.set a va').set b vb').set c vc').set d vd'

/-- One ChaCha20 double round (column round then diagonal round). -/
def chachaDoubleRound (st : List Nat) : List Nat :=
  chachaQR (chachaQR (chachaQR (chachaQR
    (chachaQR (chachaQR (chachaQR (chachaQR st 0 4 8 12) 1 5 9 13)
      2 6 10 14) 3 7 11 15) 0 5 10 15) 1 6 11 12) 2 7 8 13) 3 4 9 14

/-- Initial ChaCha20 state: constants, 8 key words, the block counter and
3 nonce words, all little-endian. -/
def chachaInit (key : Bytes) (counter : Nat) (nonce : Bytes) : List Nat :=
  [0x61707865, 0x3320646e, 0x79622d32, 0x6b206574] ++
    (List.range 8).map (fun i => leVal ((key.drop (4 * i)).take 4)) ++
    [counter % 2 ^ 32] ++
    (List.range 3).map (fun i => leVal ((nonce.drop (4 * i)).take 4))

/-- One 64-byte ChaCha20 keystream block. -/
def chachaBlock (key : Bytes) (counter : Nat) (nonce : Bytes) : Bytes :=
  let st0 := chachaInit key counter nonce
  let st := chachaDoubleRound^[10] st0
  (List.zipWith (fun a b => (a + b) % 2 ^ 32) st st0).flatMap (leBytes 4)

/-- Keystream of `len` bytes starting at block counter 1. -/
def chachaKeystream (key : Bytes) (nonce : Bytes) (len : Nat) : Bytes :=
  (((List.range ((len + 63) / 64)).flatMap
    (fun i => chachaBlock key (1 + i) nonce))).take len

/-- Pointwise XOR (ChaCha20 encryption and decryption). -/
def xorBytes (a b : Bytes) : Bytes := List.zipWith (fun x y => x ^^^ y) a b

/-- The Poly1305 prime `2^130 - 5`. -/
def polyP : Nat := 2 ^ 130 - 5

/-- Clamping of the Poly1305 `r` part. -/
def polyClamp (r : Nat) : Nat := r &&& 0x0ffffffc0ffffffc0ffffffc0fffffff

/-- Poly1305 accumulator over 16-byte chunks; each chunk contributes its
little-endian value plus `2^(8·len)`. -/
def polyAcc (r : Nat) (acc : Nat) (msg : Bytes) : Nat :=
  if msg = [] then acc
  else
    polyAcc r
      (((acc + leVal (msg.take 16) + 2 ^ (8 * (msg.take 16).length)) * r) % polyP)
      (msg.drop 16)
termination_by msg.length
decreasing_by
  rename_i h
  have : 0 < msg.length := List.length_pos.mpr h
  simp [List.length_drop]
  omega

/-- Poly1305 tag of `msg` under the 32-byte one-time key. -/
def poly1305 (polyKey : Bytes) (msg : Bytes) : Bytes :=
  let r := polyClamp (leVal (polyKey.take 16))
  let s := leVal ((polyKey.drop 16).take 16)
  leBytes 16 ((polyAcc r 0 msg + s) % 2 ^ 128)

/-- Zero padding of `l` to a 16-byte boundary. -/
def pad16 (l : Bytes) : Bytes := List.replicate ((16 - l.length % 16) % 16) 0

/-- Input of the Poly1305 MAC for AEAD: aad, ciphertext, both padded,
then the two lengths. -/
def macData (aad ct : Bytes) : Bytes :=
  aad ++ pad16 aad ++ ct ++ pad16 ct ++ leBytes 8 aad.length ++ leBytes 8 ct.length

/-- The one-time Poly1305 key: first 32 bytes of block 0. -/
def aeadPolyKey (key nonce : Bytes) : Bytes := (chachaBlock key 0 nonce).take 32

/-- `aead.Seal`: ciphertext followed by the 16-byte tag. -/
def aeadSeal (key nonce pt aad : Bytes) : Bytes :=
  let ct := xorBytes pt (chachaKeystream key nonce pt.length)
  ct ++ poly1305 (aeadPolyKey key nonce) (macData aad ct)

/-- `aead.Open`: reject short inputs, verify the tag, then decrypt. -/
def aeadOpen (key nonce c aad : Bytes) : Option Bytes :=
  if c.length < 16 then none
  else
    let ct := c.take (c.length - 16)
    let tag := c.drop (c.length - 16)
    if poly1305 (aeadPolyKey key nonce) (macData aad ct) = tag then
      some (xorBytes ct (chachaKeystream key nonce ct.length))
    else none

/-- `CipherState`: key, 4-byte nonce prefix, monotone send counter and an
optional replay window (receive side only). -/
structure CipherState where
  key : Bytes
  noncePfx : Bytes
  sendCounter : Nat
  replay : Option ReplayWindow

/-- The 12-byte AEAD nonce `prefix ‖ counter_be`. -/
def csNonce (c : CipherState) (counter : Nat) : Bytes :=
  c.noncePfx ++ beBytes 8 counter

/-- `NextCounter`: return the current value and post-increment (`uint64`
wrap-around made explicit). -/
def csNextCounter (c : CipherState) : Nat × CipherState :=
  (c.sendCounter, { c with sendCounter := (c.sendCounter + 1) % 2 ^ 64 })

/-- `CipherState.Seal` appends `ciphertext ‖ tag` to `dst`. -/
def csSeal (c : CipherState) (dst : Bytes) (counter : Nat) (aad pt : Bytes) : Bytes :=
  dst ++ aeadSeal c.key (csNonce c counter) pt aad

/-- `CipherState.Open`: replay check before decryption, mark after a
successful decryption. -/
def csOpen (c : CipherState) (counter : Nat) (aad ct : Bytes) :
    Except QErr Bytes × CipherState :=
  match c.replay with
  | some w =>
    if ! rwCheck w counter then (.error .replay, c)
    else
      match aeadOpen c.key (csNonce c counter) ct aad with
      | none => (.error .openFailed, c)
      | some pt => (.ok pt, { c with replay := some (rwMark w counter) })
  | none =>
    match aeadOpen c.key (csNonce c counter) ct aad with
    | none => (.error .openFailed, c)
    | some pt => (.ok pt, c)

/-- `Overhead()` of ChaCha20-Poly1305. -/
def aeadOverhead : Nat := 16

/-! ## Fragmenter and reassembler (pkg/qdt, segment-list variant)

The production reassembler keeps, per fragment id, a destination buffer
of length `total` and a sorted list of non-overlapping `[start, end)`
segments.  Go maps are modelled as association lists.  The slice
expression `state.buf[off:end]` panics in Go when `end` exceeds the
buffer; that outcome is surfaced as the explicit result `oob`. -/

/-- Fragment subheader length. -/
def fragHeaderLen : Nat := 12

/-- `DefaultMaxReassembly`. -/
def defaultMaxReassembly : Nat := 65535

/-- Association-list lookup (Go map read). -/
def mapGet {α : Type} (l : List (Nat × α)) (k : Nat) : Option α :=
  (l.find? (fun p => p.1 = k)).map (fun p => p.2)

/-- Association-list insert-or-replace (Go map write). -/
def mapPut {α : Type} (l : List (Nat × α)) (k : Nat) (v : α) : List (Nat × α) :=
  if (l.find? (fun p => p.1 = k)).isSome then
    l.map (fun p => if p.1 = k then (k, v) else p)
  else l ++ [(k, v)]

/-- Association-list delete (Go map delete). -/
def mapDel {α : Type} (l : List (Nat × α)) (k : Nat) : List (Nat × α) :=
  l.filter (fun p => p.1 ≠ k)

/-- `WriteFragmentHeader`: `frag_id ‖ offset ‖ total`, big-endian u32. -/
def writeFragmentHeader (id offset total : Nat) : Bytes :=
  beBytes 4 id ++ beBytes 4 offset ++ beBytes 4 total

/-- `DecodeFragmentHeader`. -/
def decodeFragmentHeader (b : Bytes) : Except QErr (Nat × Nat × Nat × Bytes) :=
  if b.length < fragHeaderLen then .error .fragmentTooSmall
  else .ok (beVal (b.take 4), beVal ((b.drop 4).take 4),
    beVal ((b.drop 8).take 4), b.drop fragHeaderLen)

/-- Per-id partial reassembly state (`fragState`). -/
structure FragState where
  total : Nat
  received : Nat
  updatedAt : Nat
  buf : Bytes
  segments : List (Nat × Nat)
  deriving Repr, DecidableEq

/-- The reassembler (`Reassembler`).  Time stamps are abstract naturals
supplied by the caller as `now`. -/
structure Reassembler where
  ttl : Nat
  maxEntries : Nat
  maxTotal : Nat
  frags : List (Nat × FragState)
  lastSweep : Nat
  deriving Repr, DecidableEq

/-- `NewReassembler` with its defaults (non-positive arguments map to 0
here, matching the Go `<= 0` checks). -/
def newReassembler (ttl maxEntries maxTotal : Nat) : Reassembler :=
  { ttl := if ttl = 0 then 5 else ttl
    maxEntries := if maxEntries = 0 then 1024 else maxEntries
    maxTotal := if maxTotal = 0 then defaultMaxReassembly else maxTotal
    frags := [], lastSweep := 0 }

/-- `sweepLocked`: drop entries whose `updatedAt` is older than the TTL,
at most once per TTL. -/
def reasmSweep (r : Reassembler) (now : Nat) : Reassembler :=
  if now - r.lastSweep < r.ttl then r
  else
    { r with frags := r.frags.filter (fun p => ¬ now - p.2.updatedAt > r.ttl)
             lastSweep := now }

/-- Outcome of a push or a decode: a value (possibly none), an error, or
a Go slice-bounds panic. -/
inductive ROut where
  | ok (r : Option Bytes)
  | err (e : QErr)
  | oob
  deriving Repr, DecidableEq

/-- Overwrite `buf[off : off + payload.length]` with `payload` (the Go
`copy(state.buf[off:end], payload)`); meaningful when the write is in
bounds. -/
def writeAt (buf : Bytes) (off : Nat) (payload : Bytes) : Bytes :=
  buf.take off ++ payload ++ buf.drop (off + payload.length)

/-- `sort.Search` for the first segment whose start is ≥ `off`; on the
(invariantly) sorted segment list this is the number of segments starting
before `off`. -/
def segSearch (segs : List (Nat × Nat)) (off : Nat) : Nat :=
  (segs.takeWhile (fun s => s.1 < off)).length

/-- The walk inside `assemble` checking that the sorted segments tile
`[0, total)`: returns the final position, or none at the first gap. -/
def assembleWalk : Nat → List (Nat × Nat) → Option Nat
  | pos, [] => some pos
  | pos, s :: rest => if s.1 ≠ pos then none else assembleWalk s.2 rest

/-- `assemble`. -/
def assembleF (st : FragState) : Except QErr Bytes :=
  if st.received ≠ st.total then .error .incomplete
  else
    match assembleWalk 0 st.segments with
    | none => .error .fragmentGap
    | some pos => if pos ≠ st.total then .error .sizeMismatch else .ok st.buf

/-- Completion step shared by both insert paths of `Push`: store the
updated entry when still incomplete, otherwise assemble and drop it. -/
def reasmFinish (r : Reassembler) (id : Nat) (st : FragState) : ROut × Reassembler :=
  if st.received < st.total then (.ok none, { r with frags := mapPut r.frags id st })
  else
    match assembleF st with
    | .ok buf => (.ok (some buf), { r with frags := mapDel r.frags id })
    | .error e => (.err e, { r with frags := mapDel r.frags id })

/-- The segment-insertion cascade of `Push`, after the entry `st` for
`id` has been fetched or created: fast append path when the fragment
starts at or after the last recorded segment, otherwise a `sort.Search`
insert with the two neighbour overlap checks. -/
def reasmInsert (r1 : Reassembler) (id : Nat) (st : FragState) (offset : Nat)
    (payload : Bytes) (now : Nat) : ROut × Reassembler :=
  let endp := offset + payload.length
  if st.segments ≠ [] ∧ offset ≥ (st.segments.getLastD (0, 0)).2 then
    -- fast path: append after the last segment
    if endp > st.buf.length then (.oob, r1)
    else
      reasmFinish r1 id
        { st with buf := writeAt st.buf offset payload
                  segments := st.segments ++ [(offset, endp)]
                  received := st.received + payload.length
                  updatedAt := now }
  else
    let idx := segSearch st.segments offset
    if idx > 0 ∧ offset < ((st.segments.getD (idx - 1) (0, 0))).2 then
      (.err .fragmentOverlap, { r1 with frags := mapDel r1.frags id })
    else if idx < st.segments.length ∧ (st.segments.getD idx (0, 0)).1 < endp then
      (.err .fragmentOverlap, { r1 with frags := mapDel r1.frags id })
    else if endp > st.buf.length then (.oob, r1)
    else
      reasmFinish r1 id
        { st with buf := writeAt st.buf offset payload
                  segments := st.segments.take idx ++ [(offset, endp)] ++ st.segments.drop idx
                  received := st.received + payload.length
                  updatedAt := now }

/-- `Reassembler.Push`. -/
def reasmPush (r : Reassembler) (now : Nat) (b : Bytes) : ROut × Reassembler :=
  match decodeFragmentHeader b with
  | .error e => (.err e, r)
  | .ok (id, offset, total, payload) =>
    if total = 0 then (.err .invalidTotal, r)
    else if r.maxTotal > 0 ∧ total > r.maxTotal then (.err .totalTooLarge, r)
    else if offset + payload.length > total then (.err .exceedsTotal, r)
    else
      let r1 := if r.frags.length ≥ r.maxEntries then reasmSweep r now else r
      let st := match mapGet r1.frags id with
        | some st => st
        | none =>
          { total := total, received := 0, updatedAt := now
            buf := List.replicate total 0, segments := [] }
      reasmInsert r1 id st offset payload now

/-! ## Tunnel codec (`Tunnel`, pkg/qdt/tunnel.go)

MTU fields are Go `int`s, so they are `Int` here; the payload MTU is
`MTU - HeaderLen - Overhead` and the fragment payload MTU subtracts the
12-byte fragment subheader. -/

structure Tunnel where
  sessionID : Nat
  mtu : Int
  sendCS : CipherState
  recvCS : CipherState
  fragID : Nat
  reasm : Reassembler

/-- `NewTunnelWithLimits` (a non-positive MTU falls back to 1350). -/
def newTunnel (sessionID : Nat) (mtu : Int) (send recv : CipherState)
    (maxReassembly : Nat) : Tunnel :=
  { sessionID := sessionID
    mtu := if mtu ≤ 0 then 1350 else mtu
    sendCS := send, recvCS := recv, fragID := 0
    reasm := newReassembler 0 0 maxReassembly }

/-- `payloadMTU`. -/
def payloadMTU (t : Tunnel) : Int := t.mtu - headerLen - aeadOverhead

/-- `fragmentPayloadMTU`. -/
def fragmentPayloadMTU (t : Tunnel) : Int := payloadMTU t - fragHeaderLen

/-- `encodeAndEmit`: take the next send counter, serialize the header,
seal with the header as AAD, producing `header ‖ ciphertext ‖ tag`. -/
def encodeAndEmit (t : Tunnel) (msgType : Nat) (payload : Bytes) : Bytes × Tunnel :=
  let cc := csNextCounter t.sendCS
  let hdr : Header :=
    { version := protocolVersion, type := msgType, flags := 0
      sessionID := t.sessionID, counter := cc.1 }
  let hb := writeHeader hdr
  (csSeal t.sendCS hb cc.1 hb payload, { t with sendCS := cc.2 })

/-- The fragment loop of `EncodePacket`: walk the payload in `fragMax`
sized slices, each prefixed with `(id, offset, total)`. -/
def encodeFragLoop (t : Tunnel) (fid fragMax : Nat) (payload : Bytes)
    (offset : Nat) : Tunnel × List Bytes :=
  if _h : offset < payload.length ∧ 0 < fragMax then
    let endp := min (offset + fragMax) payload.length
    let plain := writeFragmentHeader fid offset payload.length ++
      ((payload.drop offset).take (endp - offset))
    let e := encodeAndEmit t msgFragment plain
    let rest := encodeFragLoop e.2 fid fragMax payload endp
    (rest.1, e.1 :: rest.2)
  else (t, [])
termination_by payload.length - offset
decreasing_by
  omega

/-- `Tunnel.EncodePacket`, with the emit callback collected into a list:
one `Data` datagram when the payload fits, otherwise `Fragment`
datagrams under a fresh fragment id. -/
def encodePacket (t : Tunnel) (payload : Bytes) :
    Except QErr (Tunnel × List Bytes) :=
  let maxPayload := payloadMTU t
  if maxPayload ≤ 0 then .error .invalidMTU
  else if (payload.length : Int) ≤ maxPayload then
    let e := encodeAndEmit t msgData payload
    .ok (e.2, [e.1])
  else
    let fragMax := fragmentPayloadMTU t
    if fragMax ≤ 0 then .error .fragMTUTooSmall
    else
      let fid := (t.fragID + 1) % 2 ^ 32
      let t1 := { t with fragID := fid }
      .ok (encodeFragLoop t1 fid fragMax.toNat payload 0)

/-- `Tunnel.DecodeDatagramInto` (the plaintext/assembled value, with the
buffer-pooling flag dropped): parse, session check, replay-checked open,
then dispatch on the message type. -/
def decodeDatagram (t : Tunnel) (now : Nat) (raw : Bytes) : ROut × Tunnel :=
  match parseHeader raw with
  | .error e => (.err e, t)
  | .ok (hdr, ct) =>
    if hdr.sessionID ≠ t.sessionID then (.err .sessionMismatch, t)
    else if ct.length < aeadOverhead then (.err .invalidDatagram, t)
    else
      match csOpen t.recvCS hdr.counter (raw.take headerLen) ct with
      | (.error e, cs') => (.err e, { t with recvCS := cs' })
      | (.ok plain, cs') =>
        let t1 := { t with recvCS := cs' }
        if hdr.type = msgData then (.ok (some plain), t1)
        else if hdr.type = msgFragment then
          let pr := reasmPush t1.reasm now plain
          (pr.1, { t1 with reasm := pr.2 })
        else if hdr.type = msgPing ∨ hdr.type = msgPong then (.ok none, t1)
        else (.err .unknownType, t1)

/-- Deliver a list of datagrams in order, collecting each outcome. -/
def decodeAll (t : Tunnel) (now : Nat) : List Bytes → Tunnel × List ROut
  | [] => (t, [])
  | d :: ds =>
    let r := decodeDatagram t now d
    let rest := decodeAll r.2 now ds
    (rest.1, r.1 :: rest.2)

/-! ## IPAM pool (`ipam.Pool`)

Addresses are `uint32` values.  The CIDR string parsing of
`net.ParseCIDR` is out of scope; `ipamNew` starts from the parsed IPv4
address and prefix length, exactly where the Go code computes the mask,
network and broadcast addresses. -/

structure Pool where
  base : Nat
  max : Nat
  next : Nat
  used : List Nat
  reserved : List Nat
  deriving Repr, DecidableEq

/-- The network address of `ip/maskBits` (the Go `ipnet.IP`). -/
def cidrNetwork (ip maskBits : Nat) : Nat :=
  ip &&& (2 ^ 32 - 2 ^ (32 - maskBits))

/-- The broadcast address `netUint | ^mask`. -/
def cidrBroadcast (ip maskBits : Nat) : Nat :=
  cidrNetwork ip maskBits ||| (2 ^ (32 - maskBits) - 1)

/-- `ipam.New` after CIDR parsing: mask the address, compute broadcast,
require `broadcast - network ≥ 3`, reserve network, broadcast and every
caller-supplied address. -/
def ipamNew (ip : Nat) (maskBits : Nat) (reserve : List Nat) : Option Pool :=
  let netUint := cidrNetwork ip maskBits
  let broadcast := cidrBroadcast ip maskBits
  if broadcast - netUint < 3 then none
  else some
    { base := netUint + 1, max := broadcast - 1, next := netUint + 1
      used := [], reserved := reserve ++ [netUint, broadcast] }

/-- The `i`-th scanned candidate of `Acquire`:
`base + ((next - base + i) % span)`. -/
def poolCandidate (p : Pool) (i : Nat) : Nat :=
  p.base + ((p.next - p.base + i) % (p.max - p.base + 1))

/-- The scan predicate of `Acquire`: candidate `i` is neither used nor
reserved. -/
def poolFree (p : Pool) (i : Nat) : Bool :=
  ! (p.used.contains (poolCandidate p i) || p.reserved.contains (poolCandidate p i))

/-- `Pool.Acquire`: scan `[base, max]` starting at `next` (mod the span),
return the first address neither used nor reserved, mark it used and
advance `next`. -/
def poolAcquire (p : Pool) : Option (Nat × Pool) :=
  match (List.range (p.max - p.base + 1)).find? (poolFree p) with
  | none => none
  | some i =>
    some (poolCandidate p i,
      { p with used := poolCandidate p i :: p.used, next := poolCandidate p i + 1 })

/-- `Pool.Release`: drop from `used`; absent entries are untouched and
`reserved` is never modified. -/
def poolRelease (p : Pool) (ip : Nat) : Pool :=
  { p with used := p.used.filter (fun x => x ≠ ip) }

/-- Run `n` successive `Acquire` calls, collecting each outcome. -/
def poolAcquireN (p : Pool) : Nat → List (Option Nat) × Pool
  | 0 => ([], p)
  | n + 1 =>
    match poolAcquire p with
    | none => (none :: (poolAcquireN p n).1, (poolAcquireN p n).2)
    | some (a, p') => (some a :: (poolAcquireN p' n).1, (poolAcquireN p' n).2)

/-! ## Handshake MTU negotiation (server.go and DecodeConnectRequest) -/

/-- The MTU defaulting of `DecodeConnectRequest`: a non-positive client
MTU is replaced by `DefaultMTU = 1350`. -/
def decodeRequestMTU (m : Int) : Int := if m ≤ 0 then 1350 else m

/-- The negotiation in `connectHandler`: start from the server MTU and
take the client's decoded MTU when it is positive and smaller. -/
def negotiateMTU (server : Int) (clientRaw : Int) : Int :=
  if decodeRequestMTU clientRaw > 0 ∧ decodeRequestMTU clientRaw < server then
    decodeRequestMTU clientRaw
  else server

/-! ## Connect-handler token gate (server.go)

`connectHandler` checks readiness, the method, then compares the
`X-QDT-Token` header against the configured token with Go string
equality.  Go string equality first compares lengths and then compares
bytes, stopping at the first mismatch; `goStrEqSteps` counts the byte
comparisons this performs, as a timing model of the comparison. -/

/-- Byte comparisons performed by a short-circuit equality scan. -/
def byteCmpSteps : Bytes → Bytes → Nat
  | [], _ => 0
  | _, [] => 0
  | x :: xs, y :: ys => if x = y then 1 + byteCmpSteps xs ys else 1

/-- Cost model of Go string (in)equality: zero byte comparisons when the
lengths differ, otherwise a short-circuit byte scan. -/
def goStrEqSteps (a b : Bytes) : Nat :=
  if a.length ≠ b.length then 0 else byteCmpSteps a b

/-- The HTTP status produced by the guard prefix of `connectHandler`
(200 standing for "proceed past the guards"). -/
def connectGateStatus (ready : Bool) (methodPost : Bool)
    (headerToken cfgToken : Bytes) : Nat :=
  if ¬ ready then 503
  else if ¬ methodPost then 405
  else if headerToken ≠ cfgToken then 401
  else 200

/-! ## Specification-side definitions used in the theorems -/

/-- The bitmap of a replay window as one natural number: word `i`
contributes its value at bit position `64·i` (the inverse of the
`offset / 64`, `offset % 64` addressing of the code). -/
def rwVal : List Nat → Nat
  | [] => 0
  | w :: ws => w + 2 ^ 64 * rwVal ws

/-- Well-formedness of a replay window state, as established by
`NewReplayWindow` and preserved by `Mark`: positive size, the backing
array has exactly `(size+63)/64` words, words are `uint64` values, and
`max` is a `uint64` value. -/
def ReplayWindow.WF (w : ReplayWindow) : Prop :=
  0 < w.size ∧ w.bits.length = rwWords w.size ∧
    (∀ x ∈ w.bits, x < 2 ^ 64) ∧ w.max < 2 ^ 64

instance (w : ReplayWindow) : Decidable w.WF := by
  unfold ReplayWindow.WF; infer_instance

/-- The correspondence between a replay window and the set `S` of
counters marked so far (delivered to `Mark` after a successful `Check`):
before any mark the window is untouched; afterwards `max` is the largest
marked counter and, inside the window, exactly the offsets of marked
counters have their bit set. -/
def rwInv (w : ReplayWindow) (S : List Nat) : Prop :=
  (S = [] ∧ w.initialized = false ∧
    ∀ o, o < w.size → rwIsSet w.bits o = false) ∨
  (S ≠ [] ∧ w.initialized = true ∧ w.max ∈ S ∧ (∀ c ∈ S, c ≤ w.max) ∧
    ∀ o, o < w.size →
      (rwIsSet w.bits o = true ↔ (w.max - o) ∈ S ∧ o ≤ w.max))

/-- Run a list of pushes through the reassembler, collecting outcomes. -/
def reasmPushAll (r : Reassembler) (now : Nat) : List Bytes → Reassembler × List ROut
  | [] => (r, [])
  | b :: bs =>
    let pr := reasmPush r now b
    let rest := reasmPushAll pr.2 now bs
    (rest.1, pr.1 :: rest.2)

/-- A partition of `[pos, n)` into consecutive non-empty `(offset,
length)` pieces. -/
def TilingFrom : Nat → List (Nat × Nat) → Nat → Prop
  | pos, [], n => pos = n
  | pos, s :: rest, n => s.1 = pos ∧ 0 < s.2 ∧ TilingFrom (s.1 + s.2) rest n

/-- The slice `p[off : off+len]` carried by the piece `s`. -/
def sliceOf (p : Bytes) (s : Nat × Nat) : Bytes := (p.drop s.1).take s.2

/-- The fragment plaintext delivering piece `s` of payload `p` under
fragment id `id`. -/
def mkFragBytes (id : Nat) (p : Bytes) (s : Nat × Nat) : Bytes :=
  writeFragmentHeader id s.1 p.length ++ sliceOf p s

/-- The `[start, end)` interval of a piece. -/
def segItv (s : Nat × Nat) : Nat × Nat := (s.1, s.1 + s.2)

/-- Sum of the piece lengths. -/
def lensSum (D : List (Nat × Nat)) : Nat := (D.map (fun s => s.2)).sum

/-- A segment list as kept by the reassembler entry: every segment
non-empty, consecutive segments ordered and non-overlapping. -/
def SegChain (l : List (Nat × Nat)) : Prop :=
  (∀ s ∈ l, s.1 < s.2) ∧ l.Chain' (fun a b => a.2 ≤ b.1)

/-- The entry-state invariant after the pieces `D` of payload `p` have
been accepted under one fragment id: totals and buffer length match the
payload, the segment list is a sorted non-overlapping arrangement of the
accepted intervals, the received count is their total length, and the
buffer agrees with the payload on every covered position. -/
def EntryInv (p : Bytes) (D : List (Nat × Nat)) (st : FragState) : Prop :=
  st.total = p.length ∧ st.buf.length = p.length ∧
  SegChain st.segments ∧
  st.segments.Perm (D.map segItv) ∧
  st.received = lensSum D ∧
  ∀ i, i < p.length → (∃ s ∈ D, s.1 ≤ i ∧ i < s.1 + s.2) →
    st.buf.getD i 0 = p.getD i 0

instance instTilingDec : (pos : Nat) → (L : List (Nat × Nat)) → (n : Nat) →
    Decidable (TilingFrom pos L n)
  | pos, [], n => by unfold TilingFrom; infer_instance
  | pos, s :: rest, n => by
    unfold TilingFrom
    have := instTilingDec (s.1 + s.2) rest n
    infer_instance

/-- The reassembler-level invariant while the pieces `D` of payload `p`
are in flight under fragment id `id`: either nothing was accepted yet
and the table is empty, or the single entry for `id` satisfies
`EntryInv`. -/
def RInv (r : Reassembler) (p : Bytes) (id : Nat) (D : List (Nat × Nat)) : Prop :=
  (D = [] ∧ r.frags = []) ∨
  (D ≠ [] ∧ ∃ st, r.frags = [(id, st)] ∧ EntryInv p D st)

/-- The consecutive `(offset, length)` chunks that the fragment loop of
`EncodePacket` carves out of a payload of length `len`, starting at
`offset`, at most `m` bytes each. -/
def chunksFrom (m len offset : Nat) : List (Nat × Nat) :=
  if _h : offset < len ∧ 0 < m then
    (offset, min (offset + m) len - offset) :: chunksFrom m len (min (offset + m) len)
  else []
termination_by len - offset
decreasing_by
  omega

/-- The send counters attached to a chunk list, post-incremented modulo
`2^64` exactly as `NextCounter` does. -/
def ctrItems : Nat → List (Nat × Nat) → List (Nat × (Nat × Nat))
  | _, [] => []
  | c0, s :: rest => (c0, s) :: ctrItems ((c0 + 1) % 2 ^ 64) rest

/-- The wire datagram built by `encodeAndEmit`: the serialized header
followed by the plaintext sealed under the per-counter nonce with the
header bytes as AAD. -/
def mkDatagram (key npfx : Bytes) (sid mt c : Nat) (plain : Bytes) : Bytes :=
  writeHeader { version := protocolVersion, type := mt, flags := 0
                sessionID := sid, counter := c } ++
    aeadSeal key (npfx ++ beBytes 8 c) plain
      (writeHeader { version := protocolVersion, type := mt, flags := 0
                     sessionID := sid, counter := c })

/-- The receiver tunnel after a successful replay-checked open: only the
replay window has been marked. -/
def t1mk (t2 : Tunnel) (w : ReplayWindow) (c : Nat) : Tunnel :=
  { t2 with recvCS := { t2.recvCS with replay := some (rwMark w c) } }

/-- A concrete send-side cipher state used to instantiate the tunnel
round-trip at a specific input. -/
def demoCS : CipherState :=
  { key := List.range 32, noncePfx := [1, 2, 3, 4], sendCounter := 0
    replay := none }

/-- The matching receive-side cipher state with a fresh width-16 replay
window. -/
def demoCSR : CipherState := { demoCS with replay := some (newReplayWindow 16) }

/-- A concrete sender tunnel (session 5, MTU 100). -/
def demoSender : Tunnel :=
  { sessionID := 5, mtu := 100, sendCS := demoCS, recvCS := demoCS, fragID := 0
    reasm := newReassembler 0 0 0 }

/-- The peer tunnel with matching keys and session id. -/
def demoReceiver : Tunnel := { demoSender with recvCS := demoCSR }

/-! ## Theorems -/

theorem length_beBytes (w v : Nat) : (beBytes w v).length = w := by
  induction w generalizing v with
  | zero => rfl
  | succ n ih => simp [beBytes, ih]

theorem beVal_append_single (l : Bytes) (b : Nat) :
    beVal (l ++ [b]) = beVal l * 256 + b := by
  simp [beVal, List.foldl_append]

theorem beVal_beBytes (w v : Nat) : beVal (beBytes w v) = v % 2 ^ (8 * w) := by
  induction w generalizing v with
  | zero => simp [beBytes, beVal, Nat.mod_one]
  | succ n ih =>
    rw [beBytes, beVal_append_single, ih]
    have h256 : (2 : Nat) ^ (8 * (n + 1)) = 256 * 2 ^ (8 * n) := by ring
    rw [h256, Nat.mod_mul]
    omega

theorem writeHeader_cons (h : Header) :
    writeHeader h = 81 :: 68 :: 84 :: h.version :: h.type :: h.flags ::
      (beBytes 8 h.sessionID ++ beBytes 8 h.counter) := by
  simp [writeHeader, magicBytes]

theorem length_writeHeader (h : Header) : (writeHeader h).length = headerLen := by
  rw [writeHeader_cons]
  simp [headerLen, length_beBytes]

theorem parseHeader_of_shape (v ty fl : Nat) (A B t : Bytes)
    (hA : A.length = 8) (hB : B.length = 8) (hv : v = 1) :
    parseHeader (81 :: 68 :: 84 :: v :: ty :: fl :: (A ++ (B ++ t))) =
      .ok ({ version := v, type := ty, flags := fl
             sessionID := beVal A, counter := beVal B }, t) := by
  have hd6 : (81 :: 68 :: 84 :: v :: ty :: fl :: (A ++ (B ++ t))).drop 6 =
      A ++ (B ++ t) := rfl
  have hd14 : (81 :: 68 :: 84 :: v :: ty :: fl :: (A ++ (B ++ t))).drop 14 =
      B ++ t := by
    rw [show (14 : Nat) = 6 + 8 from rfl, ← List.drop_drop, hd6, List.drop_left' hA]
  have hd22 : (81 :: 68 :: 84 :: v :: ty :: fl :: (A ++ (B ++ t))).drop 22 = t := by
    rw [show (22 : Nat) = 14 + 8 from rfl, ← List.drop_drop, hd14, List.drop_left' hB]
  have ht3 : (81 :: 68 :: 84 :: v :: ty :: fl :: (A ++ (B ++ t))).take 3 =
      magicBytes := rfl
  have hg3 : (81 :: 68 :: 84 :: v :: ty :: fl :: (A ++ (B ++ t))).getD 3 0 = v := rfl
  have hg4 : (81 :: 68 :: 84 :: v :: ty :: fl :: (A ++ (B ++ t))).getD 4 0 = ty := rfl
  have hg5 : (81 :: 68 :: 84 :: v :: ty :: fl :: (A ++ (B ++ t))).getD 5 0 = fl := rfl
  rw [parseHeader]
  rw [if_neg (by simp [headerLen, hA, hB]; omega)]
  rw [if_neg (by rw [ht3]; simp)]
  rw [if_neg (by rw [hg3, hv]; simp [protocolVersion])]
  simp only [headerLen, hd6, hd14, hd22, hg3, hg4, hg5]
  rw [List.take_left' hA, List.take_left' hB]

theorem parseHeader_roundTrip (h : Header) (t : Bytes) (hwf : h.WF)
    (hv : h.version = protocolVersion) :
    parseHeader (writeHeader h ++ t) = .ok (h, t) := by
  obtain ⟨h1, h2, h3, h4, h5⟩ := hwf
  have l1 : (beBytes 8 h.sessionID).length = 8 := length_beBytes 8 _
  have l2 : (beBytes 8 h.counter).length = 8 := length_beBytes 8 _
  have hb : writeHeader h ++ t = 81 :: 68 :: 84 :: h.version :: h.type :: h.flags ::
      (beBytes 8 h.sessionID ++ (beBytes 8 h.counter ++ t)) := by
    rw [writeHeader_cons]; simp
  rw [hb, parseHeader_of_shape _ _ _ _ _ _ l1 l2 hv]
  rw [beVal_beBytes, beVal_beBytes]
  have e1 : h.sessionID % 2 ^ (8 * 8) = h.sessionID := Nat.mod_eq_of_lt h4
  have e2 : h.counter % 2 ^ (8 * 8) = h.counter := Nat.mod_eq_of_lt h5
  rw [e1, e2]

/-- C4: parsing the 22-byte serialization of any version-1 header
followed by any tail returns exactly the header and the tail; inputs
shorter than 22 bytes fail with `InvalidDatagram`, well-sized inputs
whose first three bytes are not `"QDT"` fail with `BadMagic`, and
well-sized, well-magiced inputs whose version byte is not 1 fail with
`BadVersion`. -/
theorem headerCodecSound :
    (∀ (h : Header) (t : Bytes), h.WF → h.version = protocolVersion →
      parseHeader (writeHeader h ++ t) = .ok (h, t)) ∧
    (∀ b : Bytes, b.length < headerLen →
      parseHeader b = .error .invalidDatagram) ∧
    (∀ b : Bytes, headerLen ≤ b.length → b.take 3 ≠ magicBytes →
      parseHeader b = .error .badMagic) ∧
    (∀ b : Bytes, headerLen ≤ b.length → b.take 3 = magicBytes →
      b.getD 3 0 ≠ protocolVersion → parseHeader b = .error .badVersion) := by
  refine ⟨parseHeader_roundTrip, ?_, ?_, ?_⟩
  · intro b hb
    rw [parseHeader, if_pos hb]
  · intro b hb hm
    rw [parseHeader, if_neg (by omega), if_pos hm]
  · intro b hb hm hv
    rw [parseHeader, if_neg (by omega), if_neg (by simp [hm]), if_pos hv]

/-- Witness for `headerCodecSound` at the concrete header of the
repository's own round-trip test (`{1, Data, flags 1, session 42,
counter 7}` with tail `"test"`), plus concrete corrupted inputs. -/
theorem headerCodecSound_witness :
    parseHeader (writeHeader
        { version := 1, type := 0, flags := 1, sessionID := 42, counter := 7 } ++
        [116, 101, 115, 116]) =
      .ok ({ version := 1, type := 0, flags := 1, sessionID := 42, counter := 7 },
        [116, 101, 115, 116]) ∧
    parseHeader [81, 68, 84] = .error .invalidDatagram ∧
    parseHeader (88 :: List.replicate 21 0) = .error .badMagic ∧
    parseHeader (81 :: 68 :: 84 :: 9 :: List.replicate 18 0) = .error .badVersion := by
  refine ⟨?_, ?_, ?_, ?_⟩
  · exact headerCodecSound.1 _ _ (by decide) (by decide)
  · exact headerCodecSound.2.1 _ (by decide)
  · exact headerCodecSound.2.2.1 _ (by decide) (by decide)
  · exact headerCodecSound.2.2.2 _ (by decide) (by decide) (by decide)

/-! ### IPAM pool (C7, C9) -/

theorem poolAcquire_spec (p : Pool) (a : Nat) (p' : Pool)
    (h : poolAcquire p = some (a, p')) :
    a ∉ p.used ∧ a ∉ p.reserved ∧ p'.used = a :: p.used ∧
      p'.reserved = p.reserved := by
  unfold poolAcquire at h
  cases hf : (List.range (p.max - p.base + 1)).find? (poolFree p) with
  | none => rw [hf] at h; cases h
  | some i =>
    rw [hf] at h
    simp only [Option.some.injEq, Prod.mk.injEq] at h
    obtain ⟨h1, h2⟩ := h
    subst h1
    subst h2
    have hpred : poolFree p i = true := List.find?_some hf
    unfold poolFree at hpred
    simp only [Bool.not_eq_eq_eq_not, Bool.not_true, Bool.or_eq_false_iff] at hpred
    refine ⟨?_, ?_, rfl, rfl⟩
    · simpa using hpred.1
    · simpa using hpred.2

theorem filterNe_eq_self (l : List Nat) (a : Nat) (h : a ∉ l) :
    l.filter (fun x => x ≠ a) = l := by
  apply List.filter_eq_self.mpr
  intro x hx
  have : x ≠ a := fun hxa => h (hxa ▸ hx)
  simp [this]

theorem poolRelease_restores (p : Pool) (a : Nat) (p' : Pool)
    (h : poolAcquire p = some (a, p')) : (poolRelease p' a).used = p.used := by
  obtain ⟨hnu, -, hu, -⟩ := poolAcquire_spec p a p' h
  simp only [poolRelease, hu]
  rw [show ((a :: p.used).filter (fun x => x ≠ a)) =
      p.used.filter (fun x => x ≠ a) from by simp [List.filter_cons]]
  exact filterNe_eq_self p.used a hnu

/-- C7: an acquired address was neither used nor reserved and becomes
used; two acquires without a release return distinct addresses;
releasing an acquired address restores the used set; release is
idempotent and ignores absent addresses; and on `10.8.0.0/29` with
`10.8.0.1` reserved, five acquires return `10.8.0.2` … `10.8.0.6` and
the sixth fails. -/
theorem ipamPoolSound :
    (∀ p a p', poolAcquire p = some (a, p') →
      a ∉ p.used ∧ a ∉ p.reserved ∧ p'.used = a :: p.used ∧
        p'.reserved = p.reserved) ∧
    (∀ p a p' b p'', poolAcquire p = some (a, p') →
      poolAcquire p' = some (b, p'') → b ≠ a) ∧
    (∀ p a p', poolAcquire p = some (a, p') →
      (poolRelease p' a).used = p.used) ∧
    (∀ p a, poolRelease (poolRelease p a) a = poolRelease p a) ∧
    (∀ p a, a ∉ p.used → poolRelease p a = p) ∧
    (ipamNew 168296448 29 [168296449]).map (fun p => (poolAcquireN p 6).1) =
      some [some 168296450, some 168296451, some 168296452, some 168296453,
        some 168296454, none] := by
  refine ⟨poolAcquire_spec, ?_, poolRelease_restores, ?_, ?_, by decide⟩
  · intro p a p' b p'' h1 h2
    obtain ⟨-, -, hu, -⟩ := poolAcquire_spec p a p' h1
    obtain ⟨hb, -, -, -⟩ := poolAcquire_spec p' b p'' h2
    intro hba
    exact hb (by rw [hu, hba]; exact List.mem_cons_self a p.used)
  · intro p a
    cases p with
    | mk base max next used reserved =>
      simp [poolRelease, List.filter_filter]
  · intro p a ha
    cases p with
    | mk base max next used reserved =>
      simp only [poolRelease, Pool.mk.injEq, true_and, and_true]
      exact filterNe_eq_self used a ha

/-- Witness for `ipamPoolSound`: the acquire postcondition evaluated on
the concrete pool `{base 1, max 3, next 1, used ∅, reserved {2}}`. -/
theorem ipamPoolSound_witness :
    poolAcquire ⟨1, 3, 1, [], [2]⟩ = some (1, ⟨1, 3, 2, [1], [2]⟩) ∧
      (1 ∉ (⟨1, 3, 1, [], [2]⟩ : Pool).used ∧
       1 ∉ (⟨1, 3, 1, [], [2]⟩ : Pool).reserved ∧
       (⟨1, 3, 2, [1], [2]⟩ : Pool).used = 1 :: (⟨1, 3, 1, [], [2]⟩ : Pool).used ∧
       (⟨1, 3, 2, [1], [2]⟩ : Pool).reserved = (⟨1, 3, 1, [], [2]⟩ : Pool).reserved) :=
  ⟨by decide, ipamPoolSound.1 _ _ _ (by decide)⟩

/-- Counterexample for C9: on `10.0.0.0/30` the usable scan range
`[base, max]` holds only the 2 addresses `{net+1, net+2}`, fewer than 3,
yet `ipam.New` succeeds. -/
theorem ipamNew_slash30 :
    (ipamNew 167772160 30 []).isSome = true ∧
      (ipamNew 167772160 30 []).elim 0 (fun p => p.max - p.base + 1) = 2 := by
  decide

/-- C9 (amended): `ipam.New` reserves the network address, the broadcast
address and every caller-supplied address, and succeeds exactly when
`broadcast - network ≥ 3`, i.e. when the usable range `[network+1,
broadcast-1]` holds at least 2 addresses (so `/31` and `/32` fail while
`/30`, with only 2 usable addresses, succeeds). -/
theorem ipamNewRangeCheck (ip maskBits : Nat) (reserve : List Nat) :
    ((ipamNew ip maskBits reserve).isSome ↔
      3 ≤ cidrBroadcast ip maskBits - cidrNetwork ip maskBits) ∧
    (∀ p, ipamNew ip maskBits reserve = some p →
      p.reserved = reserve ++ [cidrNetwork ip maskBits, cidrBroadcast ip maskBits] ∧
      p.base = cidrNetwork ip maskBits + 1 ∧
      p.max = cidrBroadcast ip maskBits - 1 ∧ p.used = []) := by
  unfold ipamNew
  by_cases hc : cidrBroadcast ip maskBits - cidrNetwork ip maskBits < 3
  · rw [if_pos hc]
    constructor
    · simp; omega
    · intro p hp; cases hp
  · rw [if_neg hc]
    constructor
    · simp; omega
    · intro p hp
      simp only [Option.some.injEq] at hp
      subst hp
      exact ⟨rfl, rfl, rfl, rfl⟩

/-! ### MTU negotiation (C8) -/

/-- Counterexample for C8: with server MTU 1500 and a client that omits
its MTU (0 in the request body), the negotiated MTU is 1350, not the
server's 1500: `DecodeConnectRequest` substitutes `DefaultMTU = 1350`
before the handler's minimum. -/
theorem negotiateMTU_omitted :
    negotiateMTU 1500 0 = 1350 ∧ (1350 : Int) ≠ 1500 := by
  decide

/-- C8 (amended): the negotiated MTU is `min(server, client)` when the
client supplies a positive MTU, and `min(server, 1350)` when the client
omits it (`DecodeConnectRequest` replaces a non-positive client MTU with
`DefaultMTU = 1350` before the handler takes the minimum). -/
theorem negotiateMTU_eq (server clientRaw : Int) (_hs : 0 < server) :
    negotiateMTU server clientRaw =
      if 0 < clientRaw then min server clientRaw else min server 1350 := by
  unfold negotiateMTU decodeRequestMTU
  split_ifs <;> omega

/-- Witness for `negotiateMTU_eq` at server MTU 1500, client MTU 1400. -/
theorem negotiateMTU_eq_witness :
    (0 : Int) < 1500 ∧ negotiateMTU 1500 1400 =
      if (0 : Int) < 1400 then min 1500 1400 else min 1500 1350 :=
  ⟨by decide, negotiateMTU_eq 1500 1400 (by decide)⟩

/-! ### Connect-handler token gate (C10) -/

/-- C10 evaluated at a failing input: with the configured token
`"secret"`, both the candidate differing in its first byte and the
candidate differing in its last byte are rejected with status 401, but
the short-circuit Go string comparison performs 1 byte comparison for
the former and 6 for the latter — the comparison's timing depends on
the position of the first difference, so it is not constant-time. -/
theorem tokenGate_shortCircuit :
    connectGateStatus true true [88, 101, 99, 114, 101, 116]
        [115, 101, 99, 114, 101, 116] = 401 ∧
    connectGateStatus true true [115, 101, 99, 114, 101, 88]
        [115, 101, 99, 114, 101, 116] = 401 ∧
    goStrEqSteps [88, 101, 99, 114, 101, 116] [115, 101, 99, 114, 101, 116] = 1 ∧
    goStrEqSteps [115, 101, 99, 114, 101, 88] [115, 101, 99, 114, 101, 116] = 6 ∧
    (1 : Nat) ≠ 6 := by
  decide

/-! ### Replay window: bitmap arithmetic (C3) -/

theorem or_eq_add {k a b : Nat} (ha : a % 2 ^ k = 0) (hb : b < 2 ^ k) :
    a ||| b = a + b := by
  obtain ⟨m, hm⟩ := Nat.dvd_of_mod_eq_zero ha
  subst hm
  apply Nat.eq_of_testBit_eq
  intro i
  rw [Nat.testBit_lor]
  by_cases hik : i < k
  · obtain ⟨s, hs⟩ : ∃ s, k - i = s + 1 := ⟨k - i - 1, by omega⟩
    have hdiv : 2 ^ k * m / 2 ^ i = 2 ^ (k - i) * m := by
      rw [show (2 : Nat) ^ k = 2 ^ i * 2 ^ (k - i) from by
        rw [← pow_add]; congr 1; omega]
      rw [Nat.mul_assoc, Nat.mul_div_cancel_left _ (Nat.pos_pow_of_pos i (by norm_num))]
    have hai : (2 ^ k * m).testBit i = false := by
      rw [Nat.testBit_to_div_mod, hdiv, hs, pow_succ, Nat.mul_comm (2 ^ s) 2,
        Nat.mul_assoc]
      simp [Nat.mul_mod_right]
    have hsum : (2 ^ k * m + b).testBit i = b.testBit i := by
      rw [Nat.testBit_to_div_mod, Nat.testBit_to_div_mod]
      rw [Nat.add_div_of_dvd_right ((pow_dvd_pow 2 (by omega : i ≤ k)).mul_right m)]
      rw [hdiv, hs, pow_succ, Nat.mul_comm (2 ^ s) 2, Nat.mul_assoc, Nat.add_comm,
        Nat.add_mul_mod_self_left]
    rw [hsum, hai, Bool.false_or]
  · have hbi : b.testBit i = false :=
      Nat.testBit_lt_two_pow
        (lt_of_lt_of_le hb (Nat.pow_le_pow_right (by norm_num) (by omega)))
    have h2i : (2 : Nat) ^ i = 2 ^ k * 2 ^ (i - k) := by
      rw [← pow_add]; congr 1; omega
    have hsum : (2 ^ k * m + b).testBit i = (2 ^ k * m).testBit i := by
      rw [Nat.testBit_to_div_mod, Nat.testBit_to_div_mod, h2i,
        ← Nat.div_div_eq_div_mul, ← Nat.div_div_eq_div_mul,
        Nat.mul_add_div (Nat.pos_pow_of_pos k (by norm_num)),
        Nat.div_eq_of_lt hb, Nat.add_zero,
        Nat.mul_div_cancel_left _ (Nat.pos_pow_of_pos k (by norm_num))]
    rw [hsum, hbi, Bool.or_false]

theorem getD_set_self (l : List Nat) (i v : Nat) (h : i < l.length) :
    (l.set i v).getD i 0 = v := by
  rw [List.getD_eq_getElem?_getD, List.getElem?_set_self h]
  rfl

theorem getD_set_ne (l : List Nat) (i j v : Nat) (h : i ≠ j) :
    (l.set i v).getD j 0 = l.getD j 0 := by
  simp [List.getD, List.getElem?_set_ne h]

theorem rwIsSet_eq_testBit (bits : List Nat) (o : Nat) :
    rwIsSet bits o = (bits.getD (o / 64) 0).testBit (o % 64) := by
  unfold rwIsSet
  rw [Nat.one_shiftLeft, Nat.and_two_pow]
  cases h : (bits.getD (o / 64) 0).testBit (o % 64) <;>
    simp [h, Nat.pos_pow_of_pos]

theorem length_rwSet (bits : List Nat) (o : Nat) :
    (rwSet bits o).length = bits.length := by
  simp [rwSet]

theorem getD_lt_of_words (bits : List Nat) (i : Nat)
    (h : ∀ x ∈ bits, x < 2 ^ 64) : bits.getD i 0 < 2 ^ 64 := by
  by_cases hlt : i < bits.length
  · rw [List.getD_eq_getElem _ _ hlt]
    exact h _ (List.getElem_mem hlt)
  · rw [List.getD_eq_default _ _ (by omega)]
    norm_num

theorem words_rwSet (bits : List Nat) (o : Nat)
    (h : ∀ x ∈ bits, x < 2 ^ 64) : ∀ x ∈ rwSet bits o, x < 2 ^ 64 := by
  intro x hx
  rcases List.mem_or_eq_of_mem_set hx with hmem | heq
  · exact h x hmem
  · subst heq
    refine Nat.or_lt_two_pow (getD_lt_of_words bits _ h) ?_
    rw [Nat.one_shiftLeft]
    exact Nat.pow_lt_pow_right (by norm_num) (Nat.mod_lt _ (by norm_num))

theorem rwIsSet_set (bits : List Nat) (o o' : Nat) (ho : o / 64 < bits.length) :
    rwIsSet (rwSet bits o) o' = (rwIsSet bits o' || decide (o' = o)) := by
  rw [rwIsSet_eq_testBit, rwIsSet_eq_testBit]
  unfold rwSet
  by_cases hw : o' / 64 = o / 64
  · rw [hw, getD_set_self _ _ _ ho, Nat.one_shiftLeft, Nat.testBit_lor,
      Nat.testBit_two_pow]
    congr 1
    rw [decide_eq_decide]
    omega
  · rw [getD_set_ne _ _ _ _ (Ne.symm hw)]
    have hne : o' ≠ o := fun he => hw (by rw [he])
    simp [hne]

theorem rwVal_lt (bits : List Nat) (h : ∀ x ∈ bits, x < 2 ^ 64) :
    rwVal bits < 2 ^ (64 * bits.length) := by
  induction bits with
  | nil => simp [rwVal]
  | cons w ws ih =>
    have hw : w < 2 ^ 64 := h w (List.mem_cons_self w ws)
    have hv : rwVal ws < 2 ^ (64 * ws.length) :=
      ih (fun x hx => h x (List.mem_cons_of_mem w hx))
    have hstep : (2 : Nat) ^ (64 * (w :: ws).length) =
        2 ^ 64 * 2 ^ (64 * ws.length) := by
      rw [← pow_add]; congr 1; simp [List.length_cons]; ring
    rw [rwVal, hstep]
    calc w + 2 ^ 64 * rwVal ws < 2 ^ 64 * (rwVal ws + 1) := by omega
    _ ≤ 2 ^ 64 * 2 ^ (64 * ws.length) := Nat.mul_le_mul_left _ (by omega)

theorem testBit_low (w V o : Nat) (hw : w < 2 ^ 64) (ho : o < 64) :
    (w + 2 ^ 64 * V).testBit o = w.testBit o := by
  have hor : 2 ^ 64 * V ||| w = 2 ^ 64 * V + w :=
    or_eq_add (Nat.mul_mod_right _ _) hw
  rw [Nat.add_comm, ← hor, Nat.testBit_lor]
  have : (2 ^ 64 * V).testBit o = false := by
    rw [Nat.mul_comm, ← Nat.shiftLeft_eq]
    simp [Nat.testBit_shiftLeft]
    omega
  rw [this, Bool.false_or]

theorem testBit_high (w V o : Nat) (hw : w < 2 ^ 64) (ho : 64 ≤ o) :
    (w + 2 ^ 64 * V).testBit o = V.testBit (o - 64) := by
  have hor : 2 ^ 64 * V ||| w = 2 ^ 64 * V + w :=
    or_eq_add (Nat.mul_mod_right _ _) hw
  rw [Nat.add_comm, ← hor, Nat.testBit_lor]
  have h1 : (2 ^ 64 * V).testBit o = V.testBit (o - 64) := by
    rw [Nat.mul_comm, ← Nat.shiftLeft_eq]
    simp [Nat.testBit_shiftLeft]
    omega
  have h2 : w.testBit o = false :=
    Nat.testBit_lt_two_pow
      (lt_of_lt_of_le hw (Nat.pow_le_pow_right (by norm_num) ho))
  rw [h1, h2, Bool.or_false]

theorem rwVal_testBit (bits : List Nat) (h : ∀ x ∈ bits, x < 2 ^ 64)
    (o : Nat) : rwIsSet bits o = (rwVal bits).testBit o := by
  induction bits generalizing o with
  | nil =>
    simp [rwIsSet_eq_testBit, rwVal, List.getD]
  | cons w ws ih =>
    have hw : w < 2 ^ 64 := h w (List.mem_cons_self w ws)
    have hws : ∀ x ∈ ws, x < 2 ^ 64 := fun x hx => h x (List.mem_cons_of_mem w hx)
    by_cases ho : o < 64
    · rw [rwIsSet_eq_testBit]
      have hdiv : o / 64 = 0 := by omega
      have hmod : o % 64 = o := by omega
      rw [hdiv, hmod]
      rw [rwVal, testBit_low _ _ _ hw ho]
      rfl
    · have e1 : rwIsSet (w :: ws) o = rwIsSet ws (o - 64) := by
        rw [rwIsSet_eq_testBit, rwIsSet_eq_testBit]
        have hdiv : o / 64 = (o - 64) / 64 + 1 := by omega
        have hmod : o % 64 = (o - 64) % 64 := by omega
        rw [hdiv, hmod]
        rfl
      rw [e1, rwVal, testBit_high _ _ _ hw (by omega), ih hws]

theorem rwVal_replicate_zero (n : Nat) : rwVal (List.replicate n 0) = 0 := by
  induction n with
  | zero => rfl
  | succ m ih => simp [List.replicate, rwVal, ih]

theorem rwVal_replicate_append (ws : Nat) (l : List Nat) :
    rwVal (List.replicate ws 0 ++ l) = 2 ^ (64 * ws) * rwVal l := by
  induction ws with
  | zero => simp
  | succ n ih =>
    have hstep : (2 : Nat) ^ (64 * (n + 1)) = 2 ^ 64 * 2 ^ (64 * n) := by
      rw [← pow_add]; congr 1; ring
    simp [List.replicate, rwVal, ih, hstep]
    ring

theorem rwVal_take (bits : List Nat) (h : ∀ x ∈ bits, x < 2 ^ 64) (k : Nat) :
    rwVal (bits.take k) = rwVal bits % 2 ^ (64 * k) := by
  induction bits generalizing k with
  | nil => simp [rwVal]
  | cons w ws ih =>
    have hw : w < 2 ^ 64 := h w (List.mem_cons_self w ws)
    have hws : ∀ x ∈ ws, x < 2 ^ 64 := fun x hx => h x (List.mem_cons_of_mem w hx)
    cases k with
    | zero => simp [rwVal, Nat.mod_one]
    | succ m =>
      rw [List.take_succ_cons, rwVal, rwVal, ih hws m]
      have hsplit : (2 : Nat) ^ (64 * (m + 1)) = 2 ^ 64 * 2 ^ (64 * m) := by
        rw [← pow_add]; congr 1; ring
      rw [hsplit, Nat.mod_mul]
      have hm1 : (w + 2 ^ 64 * rwVal ws) % 2 ^ 64 = w := by
        rw [Nat.add_mul_mod_self_left, Nat.mod_eq_of_lt hw]
      have hm2 : (w + 2 ^ 64 * rwVal ws) / 2 ^ 64 = rwVal ws := by
        rw [Nat.add_mul_div_left _ _ (Nat.pos_pow_of_pos 64 (by norm_num)),
          Nat.div_eq_of_lt hw, Nat.zero_add]
      rw [hm1, hm2]

theorem rwVal_wordShift (bits : List Nat) (ws : Nat)
    (h : ∀ x ∈ bits, x < 2 ^ 64) (hws : ws ≤ bits.length) :
    rwVal (rwWordShift bits ws) = 2 ^ (64 * ws) * rwVal bits % 2 ^ (64 * bits.length) := by
  unfold rwWordShift
  rw [rwVal_replicate_append, rwVal_take bits h]
  rw [← Nat.mul_mod_mul_left, ← pow_add]
  have : 64 * ws + 64 * (bits.length - ws) = 64 * bits.length := by omega
  rw [this]

theorem length_rwBitShift (bs : Nat) (carry : Nat) (l : List Nat) :
    (rwBitShift bs carry l).length = l.length := by
  induction l generalizing carry with
  | nil => rfl
  | cons w ws ih => simp [rwBitShift, ih]

theorem words_rwBitShift (bs : Nat) :
    ∀ (l : List Nat) (carry : Nat), (∀ x ∈ l, x < 2 ^ 64) → carry < 2 ^ 64 →
    ∀ x ∈ rwBitShift bs carry l, x < 2 ^ 64 := by
  intro l
  induction l with
  | nil => intro carry _ _ x hx; cases hx
  | cons w ws ih =>
    intro carry h hc x hx
    rw [rwBitShift] at hx
    rcases List.mem_cons.mp hx with heq | hmem
    · subst heq
      refine Nat.or_lt_two_pow (Nat.mod_lt _ (by norm_num)) ?_
      rw [Nat.shiftRight_eq_div_pow]
      have : carry < 2 ^ (64 - bs) * 2 ^ 64 := by
        calc carry < 2 ^ 64 := hc
        _ ≤ 2 ^ (64 - bs) * 2 ^ 64 :=
          Nat.le_mul_of_pos_left _ (Nat.pos_pow_of_pos _ (by norm_num))
      exact Nat.div_lt_of_lt_mul this
    · exact ih w (fun y hy => h y (List.mem_cons_of_mem w hy))
        (h w (List.mem_cons_self w ws)) x hmem

theorem rwVal_bitShift (bs : Nat) (hbs0 : 0 < bs) (hbs : bs < 64) :
    ∀ (l : List Nat) (carry : Nat), (∀ x ∈ l, x < 2 ^ 64) → carry < 2 ^ 64 →
    rwVal (rwBitShift bs carry l) =
      (2 ^ bs * rwVal l + carry / 2 ^ (64 - bs)) % 2 ^ (64 * l.length) := by
  intro l
  induction l with
  | nil =>
    intro carry _ _
    simp [rwBitShift, rwVal, Nat.mod_one]
  | cons w ws ih =>
    intro carry h hc
    have hw : w < 2 ^ 64 := h w (List.mem_cons_self w ws)
    have hws : ∀ x ∈ ws, x < 2 ^ 64 := fun x hx => h x (List.mem_cons_of_mem w hx)
    rw [rwBitShift, rwVal, ih w hws hw]
    -- the head `or` is a disjoint sum
    have hmod0 : ((w <<< bs) % 2 ^ 64) % 2 ^ bs = 0 := by
      rw [Nat.mod_mod_of_dvd _ (pow_dvd_pow 2 (by omega)), Nat.shiftLeft_eq,
        Nat.mul_mod_left]
    have hcarrylt : carry / 2 ^ (64 - bs) < 2 ^ bs := by
      rw [Nat.div_lt_iff_lt_mul (Nat.pos_pow_of_pos _ (by norm_num)), ← pow_add]
      calc carry < 2 ^ 64 := hc
      _ ≤ 2 ^ (bs + (64 - bs)) := Nat.pow_le_pow_right (by norm_num) (by omega)
    rw [Nat.shiftRight_eq_div_pow]
    rw [or_eq_add hmod0 hcarrylt]
    -- split `w <<< bs` into its low 64 bits and its overflow word
    have hsplit : w <<< bs = (w <<< bs) % 2 ^ 64 + 2 ^ 64 * (w / 2 ^ (64 - bs)) := by
      have hdiv : (w <<< bs) / 2 ^ 64 = w / 2 ^ (64 - bs) := by
        rw [Nat.shiftLeft_eq, show (2 : Nat) ^ 64 = 2 ^ bs * 2 ^ (64 - bs) from by
          rw [← pow_add]; congr 1; omega]
        rw [Nat.mul_comm w (2 ^ bs), Nat.mul_div_mul_left _ _ (Nat.pos_pow_of_pos _ (by norm_num))]
      rw [← hdiv]
      exact (Nat.mod_add_div _ _).symm
    have hXlt : (w <<< bs) % 2 ^ 64 + carry / 2 ^ (64 - bs) < 2 ^ 64 := by
      have h1 : (w <<< bs) % 2 ^ 64 < 2 ^ 64 := Nat.mod_lt _ (by norm_num)
      have h2 : (w <<< bs) % 2 ^ 64 + 2 ^ bs ≤ 2 ^ 64 := by
        obtain ⟨q, hq⟩ := Nat.dvd_of_mod_eq_zero hmod0
        obtain ⟨q2, hq2⟩ := (pow_dvd_pow 2 (by omega : bs ≤ 64) : (2 : Nat) ^ bs ∣ 2 ^ 64)
        have hqlt : q < q2 := by
          have hlt : 2 ^ bs * q < 2 ^ bs * q2 := by
            rw [← hq, ← hq2]; exact Nat.mod_lt _ (by norm_num)
          exact lt_of_mul_lt_mul_left hlt (Nat.zero_le _)
        calc (w <<< bs) % 2 ^ 64 + 2 ^ bs = 2 ^ bs * (q + 1) := by rw [hq]; ring
        _ ≤ 2 ^ bs * q2 := Nat.mul_le_mul_left _ (by omega)
        _ = 2 ^ 64 := hq2.symm
      omega
    -- word-level mod split of the right-hand side
    have hlen : (2 : Nat) ^ (64 * (w :: ws).length) = 2 ^ 64 * 2 ^ (64 * ws.length) := by
      rw [← pow_add]; congr 1; simp [List.length_cons]; ring
    rw [hlen]
    rw [Nat.mod_mul]
    have hYmod : (2 ^ bs * (w + 2 ^ 64 * rwVal ws) + carry / 2 ^ (64 - bs)) % 2 ^ 64 =
        (w <<< bs) % 2 ^ 64 + carry / 2 ^ (64 - bs) := by
      have hexp : 2 ^ bs * (w + 2 ^ 64 * rwVal ws) + carry / 2 ^ (64 - bs) =
          ((w <<< bs) % 2 ^ 64 + carry / 2 ^ (64 - bs)) +
            2 ^ 64 * (w / 2 ^ (64 - bs) + 2 ^ bs * rwVal ws) := by
        have hX : 2 ^ bs * (w + 2 ^ 64 * rwVal ws) =
            2 ^ bs * w + 2 ^ 64 * (2 ^ bs * rwVal ws) := by ring
        have hmul : 2 ^ bs * w = w <<< bs := by rw [Nat.shiftLeft_eq, Nat.mul_comm]
        rw [hX, hmul.trans hsplit]
        omega
      rw [hexp, Nat.add_mul_mod_self_left, Nat.mod_eq_of_lt hXlt]
    have hYdiv : (2 ^ bs * (w + 2 ^ 64 * rwVal ws) + carry / 2 ^ (64 - bs)) / 2 ^ 64 =
        w / 2 ^ (64 - bs) + 2 ^ bs * rwVal ws := by
      have hexp : 2 ^ bs * (w + 2 ^ 64 * rwVal ws) + carry / 2 ^ (64 - bs) =
          ((w <<< bs) % 2 ^ 64 + carry / 2 ^ (64 - bs)) +
            2 ^ 64 * (w / 2 ^ (64 - bs) + 2 ^ bs * rwVal ws) := by
        have hX : 2 ^ bs * (w + 2 ^ 64 * rwVal ws) =
            2 ^ bs * w + 2 ^ 64 * (2 ^ bs * rwVal ws) := by ring
        have hmul : 2 ^ bs * w = w <<< bs := by rw [Nat.shiftLeft_eq, Nat.mul_comm]
        rw [hX, hmul.trans hsplit]
        omega
      rw [hexp, Nat.add_mul_div_left _ _ (Nat.pos_pow_of_pos 64 (by norm_num)),
        Nat.div_eq_of_lt hXlt, Nat.zero_add]
    rw [show rwVal (w :: ws) = w + 2 ^ 64 * rwVal ws from rfl, hYmod, hYdiv,
      Nat.add_comm (2 ^ bs * rwVal ws) (w / 2 ^ (64 - bs))]

theorem rwVal_mask_last :
    ∀ (bits : List Nat) (r : Nat), bits ≠ [] → (∀ x ∈ bits, x < 2 ^ 64) →
    rwVal (bits.set (bits.length - 1) (bits.getD (bits.length - 1) 0 % 2 ^ r)) =
      rwVal bits % 2 ^ (64 * (bits.length - 1) + r) := by
  intro bits
  induction bits with
  | nil => intro r hne; cases hne rfl
  | cons w ws ih =>
    intro r _ h
    have hw : w < 2 ^ 64 := h w (List.mem_cons_self w ws)
    have hws : ∀ x ∈ ws, x < 2 ^ 64 := fun x hx => h x (List.mem_cons_of_mem w hx)
    by_cases hwe : ws = []
    · subst hwe
      simp [rwVal, List.getD]
    · have hpos : 0 < ws.length := List.length_pos.mpr hwe
      have hlen : (w :: ws).length - 1 = (ws.length - 1) + 1 := by
        simp only [List.length_cons]
        omega
      rw [hlen]
      have hset : (w :: ws).set ((ws.length - 1) + 1)
          ((w :: ws).getD ((ws.length - 1) + 1) 0 % 2 ^ r) =
          w :: ws.set (ws.length - 1) (ws.getD (ws.length - 1) 0 % 2 ^ r) := by
        rfl
      rw [hset, rwVal, rwVal, ih r hwe hws]
      have hsplit : (2 : Nat) ^ (64 * ((ws.length - 1) + 1) + r) =
          2 ^ 64 * 2 ^ (64 * (ws.length - 1) + r) := by
        rw [← pow_add]; congr 1; ring
      rw [hsplit, Nat.mod_mul]
      have hm1 : (w + 2 ^ 64 * rwVal ws) % 2 ^ 64 = w := by
        rw [Nat.add_mul_mod_self_left, Nat.mod_eq_of_lt hw]
      have hm2 : (w + 2 ^ 64 * rwVal ws) / 2 ^ 64 = rwVal ws := by
        rw [Nat.add_mul_div_left _ _ (Nat.pos_pow_of_pos 64 (by norm_num)),
          Nat.div_eq_of_lt hw, Nat.zero_add]
      rw [hm1, hm2]

theorem rwWords_pos (size : Nat) (hs : 0 < size) : 0 < rwWords size := by
  unfold rwWords; omega

theorem size_le_words (size : Nat) : size ≤ 64 * rwWords size := by
  unfold rwWords; omega

theorem length_rwMask (size : Nat) (bits : List Nat) :
    (rwMask size bits).length = bits.length := by
  unfold rwMask
  split <;> simp

theorem words_rwMask (size : Nat) (bits : List Nat)
    (h : ∀ x ∈ bits, x < 2 ^ 64) : ∀ x ∈ rwMask size bits, x < 2 ^ 64 := by
  unfold rwMask
  split
  · intro x hx
    rcases List.mem_or_eq_of_mem_set hx with hmem | heq
    · exact h x hmem
    · subst heq
      exact lt_of_le_of_lt (Nat.and_le_left) (getD_lt_of_words bits _ h)
  · exact h

theorem rwVal_mask (size : Nat) (bits : List Nat) (hs : 0 < size)
    (hlen : bits.length = rwWords size) (h : ∀ x ∈ bits, x < 2 ^ 64) :
    rwVal (rwMask size bits) = rwVal bits % 2 ^ size := by
  have hlenpos : 0 < bits.length := by
    rw [hlen]; exact rwWords_pos size hs
  unfold rwMask
  by_cases hmb : size % 64 ≠ 0
  · rw [if_pos hmb, Nat.one_shiftLeft, Nat.and_pow_two_sub_one_eq_mod]
    rw [rwVal_mask_last bits (size % 64) (List.ne_nil_of_length_pos hlenpos) h]
    have hexp : 64 * (bits.length - 1) + size % 64 = size := by
      unfold rwWords at hlen
      omega
    rw [hexp]
  · rw [if_neg hmb]
    symm
    apply Nat.mod_eq_of_lt
    have := rwVal_lt bits h
    have hsize : 64 * bits.length = size := by
      unfold rwWords at hlen
      omega
    rw [hsize] at this
    exact this

theorem words_rwWordShift (bits : List Nat) (ws : Nat)
    (h : ∀ x ∈ bits, x < 2 ^ 64) : ∀ x ∈ rwWordShift bits ws, x < 2 ^ 64 := by
  intro x hx
  unfold rwWordShift at hx
  rcases List.mem_append.mp hx with hr | ht
  · rw [List.eq_of_mem_replicate hr]
    norm_num
  · exact h x (List.mem_of_mem_take ht)

theorem length_rwWordShift (bits : List Nat) (ws : Nat) (hws : ws ≤ bits.length) :
    (rwWordShift bits ws).length = bits.length := by
  unfold rwWordShift
  simp
  omega

theorem rwShift_facts (size : Nat) (bits : List Nat) (delta : Nat) (hs : 0 < size)
    (hlen : bits.length = rwWords size) (h : ∀ x ∈ bits, x < 2 ^ 64) :
    (rwShift size bits delta).length = bits.length ∧
    (∀ x ∈ rwShift size bits delta, x < 2 ^ 64) ∧
    rwVal (rwShift size bits delta) = 2 ^ delta * rwVal bits % 2 ^ size := by
  unfold rwShift
  by_cases hd : delta ≥ size
  · rw [if_pos hd]
    refine ⟨by simp, ?_, ?_⟩
    · intro x hx
      rw [List.eq_of_mem_replicate hx]
      norm_num
    · rw [rwVal_replicate_zero]
      rw [show (2 : Nat) ^ delta = 2 ^ size * 2 ^ (delta - size) from by
        rw [← pow_add]; congr 1; omega]
      rw [Nat.mul_assoc, Nat.mul_mod_right]
  · rw [if_neg hd]
    have hdlt : delta < size := by omega
    have hws_le : delta / 64 ≤ bits.length := by
      have := size_le_words size
      rw [hlen]
      unfold rwWords
      omega
    -- word phase
    have hp1len : (rwShiftWordPhase bits delta).length = bits.length := by
      unfold rwShiftWordPhase
      split
      · exact length_rwWordShift bits _ hws_le
      · rfl
    have hp1words : ∀ x ∈ rwShiftWordPhase bits delta, x < 2 ^ 64 := by
      unfold rwShiftWordPhase
      split
      · exact words_rwWordShift bits _ h
      · exact h
    have hp1val : rwVal (rwShiftWordPhase bits delta) =
        2 ^ (64 * (delta / 64)) * rwVal bits % 2 ^ (64 * bits.length) := by
      unfold rwShiftWordPhase
      split
      · exact rwVal_wordShift bits _ h hws_le
      · rename_i hz
        have : delta / 64 = 0 := by omega
        rw [this]
        simp
        exact (Nat.mod_eq_of_lt (rwVal_lt bits h)).symm
    -- bit phase
    have hp2len : (rwShiftBitPhase (rwShiftWordPhase bits delta) delta).length =
        bits.length := by
      unfold rwShiftBitPhase
      split
      · rw [length_rwBitShift, hp1len]
      · exact hp1len
    have hp2words : ∀ x ∈ rwShiftBitPhase (rwShiftWordPhase bits delta) delta,
        x < 2 ^ 64 := by
      unfold rwShiftBitPhase
      split
      · exact words_rwBitShift _ _ 0 hp1words (by norm_num)
      · exact hp1words
    have hp2val : rwVal (rwShiftBitPhase (rwShiftWordPhase bits delta) delta) =
        2 ^ delta * rwVal bits % 2 ^ (64 * bits.length) := by
      unfold rwShiftBitPhase
      split
      · rename_i hbz
        rw [rwVal_bitShift (delta % 64) hbz (Nat.mod_lt _ (by norm_num)) _ 0
          hp1words (by norm_num)]
        rw [Nat.zero_div, Nat.add_zero, hp1len, hp1val]
        rw [Nat.mul_comm (2 ^ (64 * (delta / 64))) (rwVal bits), Nat.mul_comm (2 ^ (delta % 64)) _]
        rw [Nat.mod_mul_mod]
        rw [Nat.mul_assoc, ← pow_add]
        rw [show 64 * (delta / 64) + delta % 64 = delta from by omega]
        rw [Nat.mul_comm]
      · rename_i hbz
        rw [hp1val]
        have hb0 : 64 * (delta / 64) = delta := by omega
        rw [hb0]
    refine ⟨by rw [length_rwMask, hp2len], words_rwMask _ _ hp2words, ?_⟩
    rw [rwVal_mask size _ hs (by rw [hp2len, hlen]) hp2words, hp2val]
    exact Nat.mod_mod_of_dvd _ (pow_dvd_pow 2 (by rw [hlen]; exact size_le_words size))

theorem rwIsSet_shift (size : Nat) (bits : List Nat) (delta o : Nat) (hs : 0 < size)
    (hlen : bits.length = rwWords size) (h : ∀ x ∈ bits, x < 2 ^ 64)
    (ho : o < size) :
    rwIsSet (rwShift size bits delta) o =
      (decide (delta ≤ o) && rwIsSet bits (o - delta)) := by
  obtain ⟨hl, hw, hv⟩ := rwShift_facts size bits delta hs hlen h
  rw [rwVal_testBit _ hw o, hv, Nat.testBit_mod_two_pow]
  rw [Nat.mul_comm, ← Nat.shiftLeft_eq, Nat.testBit_shiftLeft]
  rw [rwVal_testBit bits h (o - delta)]
  simp [ho]

theorem rwIsSet_replicate_zero (n o : Nat) :
    rwIsSet (List.replicate n 0) o = false := by
  rw [rwIsSet_eq_testBit]
  have : (List.replicate n 0).getD (o / 64) 0 = 0 := by
    by_cases h : o / 64 < n
    · rw [List.getD_eq_getElem _ _ (by simpa using h)]
      simp
    · rw [List.getD_eq_default _ _ (by simpa using h)]
  rw [this]
  simp

theorem newReplayWindow_red (size : Nat) (hs : 0 < size) :
    newReplayWindow size =
      { size := size, max := 0, initialized := false
        bits := List.replicate (rwWords size) 0 } := by
  have hne : ¬ size = 0 := by omega
  simp [newReplayWindow, hne]

theorem newReplayWindow_WF (size : Nat) (hs : 0 < size) :
    (newReplayWindow size).WF ∧ (newReplayWindow size).size = size := by
  rw [newReplayWindow_red size hs]
  refine ⟨⟨hs, by simp, ?_, by norm_num⟩, rfl⟩
  intro x hx
  rw [List.eq_of_mem_replicate hx]
  norm_num

theorem rwMark_WF (w : ReplayWindow) (c : Nat) (hwf : w.WF) (hc : c < 2 ^ 64) :
    (rwMark w c).WF ∧ (rwMark w c).size = w.size ∧
      (rwMark w c).initialized = true := by
  obtain ⟨hs, hlen, hwords, hmax⟩ := hwf
  unfold rwMark
  split_ifs with h1 h2 h3
  · -- initialized and c > max: shift then set bit 0
    obtain ⟨hl, hw, -⟩ := rwShift_facts w.size w.bits (c - w.max) hs hlen hwords
    refine ⟨⟨hs, ?_, words_rwSet _ _ hw, hc⟩, rfl, ?_⟩
    · show (rwSet (rwShift w.size w.bits (c - w.max)) 0).length = rwWords w.size
      rw [length_rwSet, hl, hlen]
    · show w.initialized = true
      simpa using h1
  · -- initialized, c ≤ max, offset inside the window
    refine ⟨⟨hs, by simpa [length_rwSet] using hlen, words_rwSet _ _ hwords, hmax⟩,
      rfl, ?_⟩
    show w.initialized = true
    simpa using h1
  · -- initialized, offset out of window: no-op
    exact ⟨⟨hs, hlen, hwords, hmax⟩, rfl, by simpa using h1⟩
  · -- not yet initialized
    exact ⟨⟨hs, by simpa [length_rwSet] using hlen, words_rwSet _ _ hwords, hc⟩,
      rfl, rfl⟩

theorem rwCheck_fresh (size c : Nat) : rwCheck (newReplayWindow size) c = true := by
  have : (newReplayWindow size).initialized = false := by
    simp [newReplayWindow]
  rw [rwCheck, if_pos (by simp [this])]

theorem rwCheck_iff (w : ReplayWindow) (c : Nat) (hi : w.initialized = true) :
    rwCheck w c = false ↔
      ((c + w.size) % 2 ^ 64 ≤ w.max ∨
        (c ≤ w.max ∧ rwIsSet w.bits (w.max - c) = true)) := by
  rw [rwCheck, if_neg (by simp [hi])]
  split_ifs with g1 g2
  · simp [g1]
    exact Or.inl g1
  · have hcle : ¬ (c ≤ w.max) := by omega
    simp [g1, hcle]
    omega
  · have hcle : c ≤ w.max := by omega
    cases hb : rwIsSet w.bits (w.max - c) with
    | false =>
      simp [hb, hcle]
      omega
    | true => simp [hb, hcle]

theorem rwCheck_after_mark (w : ReplayWindow) (c : Nat) (hwf : w.WF)
    (_hc : c < 2 ^ 64) : rwCheck (rwMark w c) c = false := by
  obtain ⟨hs, hlen, hwords, hmax⟩ := hwf
  have hsw : w.size ≤ 64 * w.bits.length := by
    rw [hlen]; exact size_le_words w.size
  unfold rwMark
  split_ifs with h1 h2 h3
  · -- initialized and c > max: shift, then set bit 0 at the new anchor
    obtain ⟨hl, hw2, -⟩ := rwShift_facts w.size w.bits (c - w.max) hs hlen hwords
    apply (rwCheck_iff _ c (by simpa using h1)).mpr
    right
    refine ⟨Nat.le_refl c, ?_⟩
    show rwIsSet (rwSet (rwShift w.size w.bits (c - w.max)) 0) (c - c) = true
    rw [Nat.sub_self, rwIsSet_set _ _ _ (by simp [hl]; rw [hlen]; exact rwWords_pos _ hs)]
    simp
  · -- initialized, c ≤ max, offset inside the window
    apply (rwCheck_iff _ c (by simpa using h1)).mpr
    right
    refine ⟨?_, ?_⟩
    · show c ≤ w.max
      omega
    · show rwIsSet (rwSet w.bits (w.max - c)) (w.max - c) = true
      rw [rwIsSet_set _ _ _ (by omega)]
      simp
  · -- initialized, offset at or past the window edge: rejected as stale
    apply (rwCheck_iff _ c (by simpa using h1)).mpr
    left
    show (c + w.size) % 2 ^ 64 ≤ w.max
    rw [Nat.mod_eq_of_lt (by omega)]
    omega
  · -- not initialized: set bit 0 at the fresh anchor
    apply (rwCheck_iff _ c rfl).mpr
    right
    refine ⟨Nat.le_refl c, ?_⟩
    show rwIsSet (rwSet w.bits 0) (c - c) = true
    rw [Nat.sub_self, rwIsSet_set _ _ _ (by simp; rw [hlen]; exact rwWords_pos _ hs)]
    simp

theorem rwInv_mark (w : ReplayWindow) (S : List Nat) (c : Nat) (hwf : w.WF)
    (hinv : rwInv w S) (hcS : c ∉ S)
    (hnear : ∀ s ∈ S, s < c + w.size) :
    rwInv (rwMark w c) (c :: S) := by
  obtain ⟨hs, hlen, hwords, hmax⟩ := hwf
  have hsw : w.size ≤ 64 * w.bits.length := by
    rw [hlen]; exact size_le_words w.size
  have hlenpos : 0 < w.bits.length := by
    rw [hlen]; exact rwWords_pos _ hs
  rcases hinv with ⟨hSe, hini, hbits⟩ | ⟨_, hini, hmem, hub, hbits⟩
  · -- before the first mark
    subst hSe
    right
    unfold rwMark
    rw [if_pos (by simp [hini])]
    refine ⟨List.cons_ne_nil _ _, rfl, List.mem_cons_self _ _, ?_, ?_⟩
    · intro x hx
      rcases List.mem_cons.mp hx with rfl | hx'
      · exact Nat.le_refl _
      · cases hx'
    · intro o ho
      have ho' : o < w.size := ho
      show rwIsSet (rwSet w.bits 0) o = true ↔ (c - o ∈ [c] ∧ o ≤ c)
      rw [rwIsSet_set _ _ _ (by simpa using hlenpos), hbits o ho']
      simp only [Bool.false_or, List.mem_singleton, decide_eq_true_eq]
      omega
  · -- already initialized
    right
    unfold rwMark
    rw [if_neg (by simp [hini])]
    by_cases hgt : c > w.max
    · rw [if_pos hgt]
      obtain ⟨hl, hw2, -⟩ := rwShift_facts w.size w.bits (c - w.max) hs hlen hwords
      refine ⟨List.cons_ne_nil _ _, hini, List.mem_cons_self _ _, ?_, ?_⟩
      · intro x hx
        rcases List.mem_cons.mp hx with rfl | hx'
        · exact Nat.le_refl _
        · show x ≤ c
          have := hub x hx'
          omega
      · intro o ho
        have ho' : o < w.size := ho
        show rwIsSet (rwSet (rwShift w.size w.bits (c - w.max)) 0) o = true ↔
          (c - o ∈ c :: S ∧ o ≤ c)
        rw [rwIsSet_set _ _ _ (by simpa [hl] using hlenpos)]
        rw [rwIsSet_shift w.size w.bits (c - w.max) o hs hlen hwords ho']
        simp only [Bool.or_eq_true, Bool.and_eq_true, decide_eq_true_eq,
          List.mem_cons]
        by_cases ho0 : o = 0
        · subst ho0
          constructor
          · intro _
            refine ⟨Or.inl ?_, ?_⟩
            · omega
            · omega
          · intro _
            right
            rfl
        · by_cases hdo : c - w.max ≤ o
          · cases hb : rwIsSet w.bits (o - (c - w.max)) with
            | false =>
              have hnotold : ¬ ((w.max - (o - (c - w.max))) ∈ S ∧
                  o - (c - w.max) ≤ w.max) := by
                rw [← hbits (o - (c - w.max)) (by omega)]
                simp [hb]
              constructor
              · rintro (⟨-, h2⟩ | h1)
                · exact absurd h2 (by simp)
                · exact absurd h1 ho0
              · rintro ⟨hc1 | hc2, hoc⟩
                · omega
                · exfalso
                  have hle : w.max - (o - (c - w.max)) = c - o := by omega
                  exact hnotold ⟨by rw [hle]; exact hc2, by omega⟩
            | true =>
              have hold := (hbits (o - (c - w.max)) (by omega)).mp hb
              have hle : w.max - (o - (c - w.max)) = c - o := by omega
              constructor
              · intro _
                have h1 : c - o ∈ S := by rw [← hle]; exact hold.1
                have h2 := hold.2
                exact ⟨Or.inr h1, by omega⟩
              · intro _
                exact Or.inl ⟨hdo, rfl⟩
          · constructor
            · rintro (⟨h1, -⟩ | h2)
              · omega
              · omega
            · rintro ⟨hc1 | hc2, hoc⟩
              · exfalso
                omega
              · exfalso
                have := hub _ hc2
                omega
    · rw [if_neg hgt]
      have hoffin : w.max - c < w.size := by
        have := hnear w.max hmem
        omega
      rw [if_pos hoffin]
      refine ⟨List.cons_ne_nil _ _, hini, List.mem_cons_of_mem _ hmem, ?_, ?_⟩
      · intro x hx
        rcases List.mem_cons.mp hx with rfl | hx'
        · show x ≤ w.max
          omega
        · exact hub x hx'
      · intro o ho
        have ho' : o < w.size := ho
        show rwIsSet (rwSet w.bits (w.max - c)) o = true ↔
          (w.max - o ∈ c :: S ∧ o ≤ w.max)
        rw [rwIsSet_set _ _ _ (by omega)]
        simp only [Bool.or_eq_true, decide_eq_true_eq, List.mem_cons]
        rw [hbits o ho']
        constructor
        · rintro (⟨hin, hom⟩ | heq)
          · exact ⟨Or.inr hin, hom⟩
          · subst heq
            exact ⟨Or.inl (by omega), by omega⟩
        · rintro ⟨hc1 | hc2, hom⟩
          · right
            omega
          · exact Or.inl ⟨hc2, hom⟩

theorem rwCheck_true_of_inv (w : ReplayWindow) (S : List Nat) (c : Nat)
    (hwf : w.WF) (hinv : rwInv w S) (hcS : c ∉ S) (hc : c + w.size < 2 ^ 64)
    (hnear : ∀ s ∈ S, s < c + w.size) : rwCheck w c = true := by
  obtain ⟨hs, hlen, hwords, hmax⟩ := hwf
  rcases hinv with ⟨hSe, hini, hbits⟩ | ⟨-, hini, hmem, hub, hbits⟩
  · rw [rwCheck, if_pos (by simp [hini])]
  · have hmaxnear := hnear w.max hmem
    rw [rwCheck, if_neg (by simp [hini]),
      if_neg (by rw [Nat.mod_eq_of_lt hc]; omega)]
    by_cases hgt : c > w.max
    · rw [if_pos hgt]
    · rw [if_neg hgt]
      have hbo := hbits (w.max - c) (by omega)
      have hnotmem : ¬ (w.max - (w.max - c) ∈ S ∧ w.max - c ≤ w.max) := by
        intro hand
        apply hcS
        have : w.max - (w.max - c) = c := by omega
        exact this ▸ hand.1
      cases hb : rwIsSet w.bits (w.max - c) with
      | false => rfl
      | true => exact absurd (hbo.mp hb) hnotmem

theorem rwCheck_false_of_mem (w : ReplayWindow) (S : List Nat) (c : Nat)
    (hwf : w.WF) (hinv : rwInv w S) (hc : c ∈ S) : rwCheck w c = false := by
  obtain ⟨hs, hlen, hwords, hmax⟩ := hwf
  rcases hinv with ⟨hSe, -, -⟩ | ⟨-, hini, hmem, hub, hbits⟩
  · subst hSe; cases hc
  · have hcmax : c ≤ w.max := hub c hc
    apply (rwCheck_iff w c hini).mpr
    by_cases hoff : w.max - c < w.size
    · right
      refine ⟨hcmax, ?_⟩
      apply (hbits (w.max - c) hoff).mpr
      refine ⟨?_, by omega⟩
      rw [show w.max - (w.max - c) = c from by omega]
      exact hc
    · left
      rw [Nat.mod_eq_of_lt (by omega)]
      omega

theorem rwAdmitAll_go :
    ∀ (L : List Nat) (w : ReplayWindow) (S : List Nat),
    w.WF → rwInv w S → L.Nodup → (∀ c ∈ L, c ∉ S) →
    (∀ c ∈ L, c + w.size < 2 ^ 64) →
    (∀ c ∈ L, ∀ s ∈ S, s < c + w.size) →
    (∀ c ∈ L, ∀ d ∈ L, d < c + w.size) →
    (rwAdmitAll w L).2 = List.replicate L.length true ∧
    (rwAdmitAll w L).1.WF ∧ (rwAdmitAll w L).1.size = w.size ∧
    rwInv (rwAdmitAll w L).1 (L.reverse ++ S) := by
  intro L
  induction L with
  | nil =>
    intro w S hwf hinv _ _ _ _ _
    exact ⟨rfl, hwf, rfl, by simpa using hinv⟩
  | cons c rest ih =>
    intro w S hwf hinv hnd hnotS hlt hnearS hnearL
    have hcL : c ∈ c :: rest := List.mem_cons_self _ _
    have hchk : rwCheck w c = true :=
      rwCheck_true_of_inv w S c hwf hinv (hnotS c hcL) (hlt c hcL)
        (fun s hs => hnearS c hcL s hs)
    have hc64 : c < 2 ^ 64 := by
      have := hlt c hcL
      have := hwf.1
      omega
    obtain ⟨hwf', hsz', -⟩ := rwMark_WF w c hwf hc64
    have hinv' : rwInv (rwMark w c) (c :: S) :=
      rwInv_mark w S c hwf hinv (hnotS c hcL) (fun s hs => hnearS c hcL s hs)
    have hstep : rwAdmitAll w (c :: rest) =
        ((rwAdmitAll (rwMark w c) rest).1, true :: (rwAdmitAll (rwMark w c) rest).2) := by
      rw [rwAdmitAll, rwAdmit, if_pos hchk]
    obtain ⟨ihres, ihwf, ihsz, ihinv⟩ := ih (rwMark w c) (c :: S) hwf' hinv'
      (List.nodup_cons.mp hnd).2
      (by
        intro x hx
        rw [List.mem_cons]
        rintro (rfl | hxS)
        · exact (List.nodup_cons.mp hnd).1 hx
        · exact hnotS x (List.mem_cons_of_mem _ hx) hxS)
      (by
        intro x hx
        rw [hsz']
        exact hlt x (List.mem_cons_of_mem _ hx))
      (by
        intro x hx s hsmem
        rw [hsz']
        rcases List.mem_cons.mp hsmem with rfl | hsS
        · exact hnearL x (List.mem_cons_of_mem _ hx) s hcL
        · exact hnearS x (List.mem_cons_of_mem _ hx) s hsS)
      (by
        intro x hx d hd
        rw [hsz']
        exact hnearL x (List.mem_cons_of_mem _ hx) d (List.mem_cons_of_mem _ hd))
    refine ⟨?_, ?_, ?_, ?_⟩
    · rw [hstep]
      simp [ihres, List.replicate_succ]
    · rw [hstep]
      exact ihwf
    · rw [hstep]
      rw [ihsz, hsz']
    · rw [hstep]
      have hperm : rest.reverse ++ (c :: S) = (c :: rest).reverse ++ S := by
        simp
      exact hperm ▸ ihinv

/-- Counterexample for C3: the code's staleness test `counter + size <=
max` is computed in `uint64` arithmetic and wraps.  After marking 3 on a
fresh width-4 window, `Check(2^64 - 1)` returns false (the sum wraps to
3), although under the claim's integer reading `c + W ≤ max` is false
and `c ≤ max` is false, so the claim's formula says the counter must be
accepted.  Likewise the two counters `2^64-100`, `2^64-50` are distinct
and within distance 50 < 2048 of each other, yet the second is rejected,
refuting the delivered-exactly-once clause as stated. -/
theorem replayWindow_wrap_cex :
    rwCheck (rwMark (newReplayWindow 4) 3) (2 ^ 64 - 1) = false ∧
    ¬((2 ^ 64 - 1) + 4 ≤ 3 ∨
      (2 ^ 64 - 1 ≤ 3 ∧
        rwIsSet (rwMark (newReplayWindow 4) 3).bits (3 - (2 ^ 64 - 1)) = true)) ∧
    (rwAdmitAll (newReplayWindow 2048) [2 ^ 64 - 100, 2 ^ 64 - 50]).2 =
      [true, false] ∧
    ([2 ^ 64 - 100, 2 ^ 64 - 50] : List Nat).Nodup ∧
    (∀ c ∈ ([2 ^ 64 - 100, 2 ^ 64 - 50] : List Nat),
      ∀ d ∈ ([2 ^ 64 - 100, 2 ^ 64 - 50] : List Nat), d < c + 2048) := by
  refine ⟨by decide, by decide, by decide, by decide, by decide⟩

/-- C3 (amended): for every window width W ≥ 1: (a) immediately after
`Mark(c)`, `Check(c)` is false; (b) before any `Mark`, every counter is
accepted; (c) on any initialized well-formed window, `Check(c)` is false
iff `(c + W) mod 2^64 ≤ max` (the code's `uint64` staleness test) or
`c ≤ max` with the bit at offset `max - c` set; (d) counters below
`2^64 - W`, pairwise distinct and pairwise within distance `< W`,
delivered in any order, are each admitted by Check-then-Mark, and each
admitted counter is rejected by every later `Check`. -/
theorem replayWindowSound :
    (∀ (w : ReplayWindow) (c : Nat), w.WF → c < 2 ^ 64 →
      rwCheck (rwMark w c) c = false) ∧
    (∀ (size c : Nat), rwCheck (newReplayWindow size) c = true) ∧
    (∀ (w : ReplayWindow) (c : Nat), w.WF → w.initialized = true →
      (rwCheck w c = false ↔
        ((c + w.size) % 2 ^ 64 ≤ w.max ∨
          (c ≤ w.max ∧ rwIsSet w.bits (w.max - c) = true)))) ∧
    (∀ (W : Nat) (L : List Nat), 0 < W → L.Nodup →
      (∀ c ∈ L, c + W < 2 ^ 64) → (∀ c ∈ L, ∀ d ∈ L, d < c + W) →
      (rwAdmitAll (newReplayWindow W) L).2 = List.replicate L.length true ∧
      (∀ c ∈ L, rwCheck (rwAdmitAll (newReplayWindow W) L).1 c = false)) := by
  refine ⟨rwCheck_after_mark, rwCheck_fresh, ?_, ?_⟩
  · intro w c hwf hi
    exact rwCheck_iff w c hi
  · intro W L hW hnd hlt hpair
    obtain ⟨hwf0, hsz0⟩ := newReplayWindow_WF W hW
    have hinv0 : rwInv (newReplayWindow W) [] := by
      left
      refine ⟨rfl, ?_, ?_⟩
      · rw [newReplayWindow_red W hW]
      · intro o ho
        rw [newReplayWindow_red W hW]
        exact rwIsSet_replicate_zero _ o
    obtain ⟨hres, hwfF, hszF, hinvF⟩ := rwAdmitAll_go L (newReplayWindow W) []
      hwf0 hinv0 hnd
      (by intro c hc; simp)
      (by intro c hc; rw [hsz0]; exact hlt c hc)
      (by intro c hc s hs; cases hs)
      (by intro c hc d hd; rw [hsz0]; exact hpair c hc d hd)
    refine ⟨hres, ?_⟩
    intro c hcL
    exact rwCheck_false_of_mem _ _ c hwfF hinvF (by simp [hcL])

/-- Witness for `replayWindowSound`: the delivered-exactly-once clause
evaluated at window width 4 with the counters 1, 2, 3. -/
theorem replayWindowSound_witness :
    (0 < 4 ∧ ([1, 2, 3] : List Nat).Nodup ∧
      (∀ c ∈ ([1, 2, 3] : List Nat), c + 4 < 2 ^ 64) ∧
      (∀ c ∈ ([1, 2, 3] : List Nat), ∀ d ∈ ([1, 2, 3] : List Nat), d < c + 4)) ∧
    ((rwAdmitAll (newReplayWindow 4) [1, 2, 3]).2 =
        List.replicate ([1, 2, 3] : List Nat).length true ∧
      (∀ c ∈ ([1, 2, 3] : List Nat),
        rwCheck (rwAdmitAll (newReplayWindow 4) [1, 2, 3]).1 c = false)) :=
  ⟨⟨by decide, by decide, by decide, by decide⟩,
    replayWindowSound.2.2.2 4 [1, 2, 3] (by decide) (by decide) (by decide)
      (by decide)⟩

/-! ### Reassembler (C5, C6) -/

/-- C6 evaluated at the failing input: a 10-byte fragment `(id 9,
offset 0, total 100)` creates a 100-byte entry buffer; a second fragment
with the same id but `total = 200`, `offset = 150` passes every length
check against its own total, and the write `state.buf[150:200]` is out
of bounds for the 100-byte buffer — in Go a slice-bounds panic, surfaced
here as the `oob` outcome. -/
theorem reasmPush_oob :
    (reasmPush (reasmPush (newReassembler 0 0 0) 0
        (writeFragmentHeader 9 0 100 ++ List.replicate 10 5)).2 0
      (writeFragmentHeader 9 150 200 ++ List.replicate 50 6)).1 = .oob := by
  decide

theorem decodeFragmentHeader_roundTrip (id off total : Nat) (payload : Bytes)
    (hid : id < 2 ^ 32) (hoff : off < 2 ^ 32) (htot : total < 2 ^ 32) :
    decodeFragmentHeader (writeFragmentHeader id off total ++ payload) =
      .ok (id, off, total, payload) := by
  have l1 : (beBytes 4 id).length = 4 := length_beBytes 4 _
  have l2 : (beBytes 4 off).length = 4 := length_beBytes 4 _
  have l3 : (beBytes 4 total).length = 4 := length_beBytes 4 _
  have hb : writeFragmentHeader id off total ++ payload =
      beBytes 4 id ++ (beBytes 4 off ++ (beBytes 4 total ++ payload)) := by
    simp [writeFragmentHeader]
  have hd4 : (beBytes 4 id ++ (beBytes 4 off ++ (beBytes 4 total ++ payload))).drop 4 =
      beBytes 4 off ++ (beBytes 4 total ++ payload) := List.drop_left' l1
  have hd8 : (beBytes 4 id ++ (beBytes 4 off ++ (beBytes 4 total ++ payload))).drop 8 =
      beBytes 4 total ++ payload := by
    rw [show (8 : Nat) = 4 + 4 from rfl, ← List.drop_drop, hd4, List.drop_left' l2]
  have hd12 : (beBytes 4 id ++ (beBytes 4 off ++ (beBytes 4 total ++ payload))).drop
      fragHeaderLen = payload := by
    rw [show fragHeaderLen = 8 + 4 from rfl, ← List.drop_drop, hd8, List.drop_left' l3]
  rw [hb, decodeFragmentHeader]
  rw [if_neg (by simp [fragHeaderLen, l1, l2, l3]; omega)]
  rw [List.take_left' l1, hd4, hd8, hd12, List.take_left' l2, List.take_left' l3]
  rw [beVal_beBytes, beVal_beBytes, beVal_beBytes]
  rw [Nat.mod_eq_of_lt (show id < 2 ^ (8 * 4) from hid),
    Nat.mod_eq_of_lt (show off < 2 ^ (8 * 4) from hoff),
    Nat.mod_eq_of_lt (show total < 2 ^ (8 * 4) from htot)]

theorem getD_take_lt (l : Bytes) (n i : Nat) (h : i < n) :
    (l.take n).getD i 0 = l.getD i 0 := by
  by_cases hi : i < l.length
  · rw [List.getD_eq_getElem _ _ (by simp [List.length_take]; omega),
      List.getD_eq_getElem _ _ hi]
    exact List.getElem_take l
  · rw [List.getD_eq_default _ _ (by simp [List.length_take]; omega),
      List.getD_eq_default _ _ (by omega)]

theorem getD_drop_add (l : Bytes) (n i : Nat) :
    (l.drop n).getD i 0 = l.getD (n + i) 0 := by
  by_cases hi : n + i < l.length
  · rw [List.getD_eq_getElem _ _ (by simp [List.length_drop]; omega),
      List.getD_eq_getElem _ _ hi]
    exact List.getElem_drop l
  · rw [List.getD_eq_default _ _ (by simp [List.length_drop]; omega),
      List.getD_eq_default _ _ (by omega)]

theorem length_writeAt (buf : Bytes) (off : Nat) (payload : Bytes)
    (h : off + payload.length ≤ buf.length) :
    (writeAt buf off payload).length = buf.length := by
  simp [writeAt, List.length_take, List.length_drop]
  omega

theorem getD_writeAt_in (buf : Bytes) (off : Nat) (payload : Bytes) (i : Nat)
    (h1 : off ≤ i) (h2 : i < off + payload.length)
    (h3 : off + payload.length ≤ buf.length) :
    (writeAt buf off payload).getD i 0 = payload.getD (i - off) 0 := by
  have hto : (buf.take off).length = off := by simp [List.length_take]; omega
  have e1 : ((buf.take off ++ payload) ++ buf.drop (off + payload.length)).getD i 0 =
      (buf.take off ++ payload).getD i 0 :=
    List.getD_append _ _ _ _ (by simp [List.length_take]; omega)
  have e2 : (buf.take off ++ payload).getD i 0 =
      payload.getD (i - (buf.take off).length) 0 :=
    List.getD_append_right _ _ _ _ (by omega)
  rw [writeAt, e1, e2, hto]

theorem getD_writeAt_out (buf : Bytes) (off : Nat) (payload : Bytes) (i : Nat)
    (h : i < off ∨ off + payload.length ≤ i)
    (h3 : off + payload.length ≤ buf.length) :
    (writeAt buf off payload).getD i 0 = buf.getD i 0 := by
  have hto : (buf.take off).length = off := by simp [List.length_take]; omega
  rcases h with h | h
  · have e1 : ((buf.take off ++ payload) ++ buf.drop (off + payload.length)).getD i 0 =
        (buf.take off ++ payload).getD i 0 :=
      List.getD_append _ _ _ _ (by simp [List.length_take]; omega)
    have e2 : (buf.take off ++ payload).getD i 0 = (buf.take off).getD i 0 :=
      List.getD_append _ _ _ _ (by omega)
    rw [writeAt, e1, e2, getD_take_lt _ _ _ h]
  · have hlen : ((buf.take off ++ payload)).length = off + payload.length := by
      simp [List.length_take]; omega
    have e1 : ((buf.take off ++ payload) ++ buf.drop (off + payload.length)).getD i 0 =
        (buf.drop (off + payload.length)).getD
          (i - (buf.take off ++ payload).length) 0 :=
      List.getD_append_right _ _ _ _ (by omega)
    rw [writeAt, e1, hlen, getD_drop_add,
      show (off + payload.length) + (i - (off + payload.length)) = i from by omega]

theorem length_sliceOf (p : Bytes) (s : Nat × Nat) (h : s.1 + s.2 ≤ p.length) :
    (sliceOf p s).length = s.2 := by
  simp [sliceOf, List.length_take, List.length_drop]; omega

theorem getD_sliceOf (p : Bytes) (s : Nat × Nat) (j : Nat) (hj : j < s.2) :
    (sliceOf p s).getD j 0 = p.getD (s.1 + j) 0 := by
  rw [sliceOf, getD_take_lt _ _ _ hj, getD_drop_add]

theorem mapGet_nil {α : Type} (k : Nat) : mapGet ([] : List (Nat × α)) k = none := rfl

theorem mapGet_single {α : Type} (k : Nat) (v : α) : mapGet [(k, v)] k = some v := by
  simp [mapGet, List.find?]

theorem mapPut_nil {α : Type} (k : Nat) (v : α) : mapPut [] k v = [(k, v)] := rfl

theorem mapPut_single {α : Type} (k : Nat) (v v' : α) :
    mapPut [(k, v)] k v' = [(k, v')] := by
  simp [mapPut, List.find?]

theorem mapDel_nil {α : Type} (k : Nat) : mapDel ([] : List (Nat × α)) k = [] := rfl

theorem mapDel_single {α : Type} (k : Nat) (v : α) : mapDel [(k, v)] k = [] := by
  simp [mapDel, List.filter]

theorem lensSum_nil : lensSum [] = 0 := rfl

theorem lensSum_cons (s : Nat × Nat) (D : List (Nat × Nat)) :
    lensSum (s :: D) = s.2 + lensSum D := by simp [lensSum]

theorem lensSum_append (D E : List (Nat × Nat)) :
    lensSum (D ++ E) = lensSum D + lensSum E := by simp [lensSum]

theorem lensSum_perm {D E : List (Nat × Nat)} (h : D.Perm E) :
    lensSum D = lensSum E := (h.map _).sum_eq

theorem segChain_nil : SegChain [] := ⟨by simp, List.chain'_nil⟩

theorem segChain_cons_tail {x : Nat × Nat} {t : List (Nat × Nat)}
    (h : SegChain (x :: t)) : SegChain t :=
  ⟨fun s hs => h.1 s (List.mem_cons_of_mem _ hs), h.2.tail⟩

theorem segChain_head_lb {x : Nat × Nat} {t : List (Nat × Nat)}
    (h : SegChain (x :: t)) : ∀ s ∈ t, x.2 ≤ s.1 := by
  induction t generalizing x with
  | nil => intro s hs; simp at hs
  | cons y t' ih =>
    intro s hs
    have hxy : x.2 ≤ y.1 := (List.chain'_cons.mp h.2).1
    rcases List.mem_cons.mp hs with rfl | hs'
    · exact hxy
    · have hyy : y.1 < y.2 := h.1 y (by simp)
      have := ih (segChain_cons_tail h) s hs'
      omega

theorem segChain_start_lb {x : Nat × Nat} {t : List (Nat × Nat)}
    (h : SegChain (x :: t)) : ∀ s ∈ x :: t, x.1 ≤ s.1 := by
  intro s hs
  rcases List.mem_cons.mp hs with rfl | hs'
  · exact le_refl _
  · have h1 := segChain_head_lb h s hs'
    have h2 : x.1 < x.2 := h.1 x (by simp)
    omega

theorem segChain_last_ub {l : List (Nat × Nat)} (h : SegChain l) :
    ∀ g ∈ l, g.2 ≤ (l.getLastD (0, 0)).2 := by
  induction l with
  | nil => simp
  | cons x t ih =>
    intro g hg
    cases t with
    | nil =>
      rcases List.mem_cons.mp hg with rfl | hg'
      · rfl
      · simp at hg'
    | cons y t' =>
      have hgl : ((x :: y :: t').getLastD (0, 0)) = ((y :: t').getLastD (0, 0)) := rfl
      rw [hgl]
      rcases List.mem_cons.mp hg with rfl | hg'
      · have hxy : g.2 ≤ y.1 := (List.chain'_cons.mp h.2).1
        have hy2 : y.1 < y.2 := h.1 y (by simp)
        have hl := ih (segChain_cons_tail h) y (by simp)
        omega
      · exact ih (segChain_cons_tail h) g hg'

theorem segChain_perm_eq (l₁ : List (Nat × Nat)) : ∀ (l₂ : List (Nat × Nat)),
    SegChain l₁ → SegChain l₂ → l₁.Perm l₂ → l₁ = l₂ := by
  induction l₁ with
  | nil =>
    intro l₂ _ _ hp
    exact (hp.symm.eq_nil).symm
  | cons x t₁ ih =>
    intro l₂ h₁ h₂ hp
    cases l₂ with
    | nil => exact absurd hp.eq_nil (by simp)
    | cons y t₂ =>
      by_cases hxy : x = y
      · subst hxy
        rw [ih t₂ (segChain_cons_tail h₁) (segChain_cons_tail h₂) hp.cons_inv]
      · exfalso
        have hx2 : x ∈ y :: t₂ := hp.mem_iff.mp (by simp)
        have hy1 : y ∈ x :: t₁ := hp.mem_iff.mpr (by simp)
        have hx2' : x ∈ t₂ := by
          rcases List.mem_cons.mp hx2 with he | hm
          · exact absurd he hxy
          · exact hm
        have hy1' : y ∈ t₁ := by
          rcases List.mem_cons.mp hy1 with he | hm
          · exact absurd he.symm hxy
          · exact hm
        have e1 : y.2 ≤ x.1 := segChain_head_lb h₂ x hx2'
        have e2 : x.2 ≤ y.1 := segChain_head_lb h₁ y hy1'
        have w1 : x.1 < x.2 := h₁.1 x (by simp)
        have w2 : y.1 < y.2 := h₂.1 y (by simp)
        omega

theorem tiling_le : ∀ (L : List (Nat × Nat)) (pos n : Nat),
    TilingFrom pos L n → pos ≤ n
  | [], pos, n, h => by simp only [TilingFrom] at h; omega
  | s :: rest, pos, n, h => by
    simp only [TilingFrom] at h
    have := tiling_le rest (s.1 + s.2) n h.2.2
    omega

theorem tiling_lensSum : ∀ (L : List (Nat × Nat)) (pos n : Nat),
    TilingFrom pos L n → pos + lensSum L = n
  | [], pos, n, h => by simp only [TilingFrom] at h; simp [lensSum_nil, h]
  | s :: rest, pos, n, h => by
    simp only [TilingFrom] at h
    have hr := tiling_lensSum rest (s.1 + s.2) n h.2.2
    have hc := lensSum_cons s rest
    have h1 := h.1
    omega

theorem tiling_mem : ∀ (L : List (Nat × Nat)) (pos n : Nat), TilingFrom pos L n →
    ∀ s ∈ L, pos ≤ s.1 ∧ 0 < s.2 ∧ s.1 + s.2 ≤ n
  | [], _, _, _ => by simp
  | s :: rest, pos, n, h => by
    simp only [TilingFrom] at h
    intro g hg
    rcases List.mem_cons.mp hg with rfl | hg'
    · exact ⟨Nat.le_of_eq h.1.symm, h.2.1, tiling_le rest (g.1 + g.2) n h.2.2⟩
    · have hm := tiling_mem rest (s.1 + s.2) n h.2.2 g hg'
      have h1 := h.1
      exact ⟨by omega, hm.2.1, hm.2.2⟩

theorem tiling_pairwise : ∀ (L : List (Nat × Nat)) (pos n : Nat), TilingFrom pos L n →
    L.Pairwise (fun a b => a.1 + a.2 ≤ b.1)
  | [], _, _, _ => List.Pairwise.nil
  | s :: rest, pos, n, h => by
    simp only [TilingFrom] at h
    refine List.pairwise_cons.mpr ⟨?_, tiling_pairwise rest (s.1 + s.2) n h.2.2⟩
    intro b hb
    exact (tiling_mem rest (s.1 + s.2) n h.2.2 b hb).1

theorem tiling_chain (L : List (Nat × Nat)) (pos n : Nat) (h : TilingFrom pos L n) :
    SegChain (L.map segItv) := by
  constructor
  · intro g hg
    obtain ⟨x, hx, he⟩ := List.mem_map.mp hg
    have := (tiling_mem L pos n h x hx).2.1
    rw [← he]
    simp only [segItv]
    omega
  · rw [List.chain'_map]
    refine List.Pairwise.chain' ?_
    refine (tiling_pairwise L pos n h).imp ?_
    intro a b hab
    simpa [segItv] using hab

theorem tiling_walk : ∀ (L : List (Nat × Nat)) (pos n : Nat), TilingFrom pos L n →
    assembleWalk pos (L.map segItv) = some n
  | [], pos, n, h => by
    simp only [TilingFrom] at h
    simp [assembleWalk, h]
  | s :: rest, pos, n, h => by
    simp only [TilingFrom] at h
    simp only [List.map_cons, assembleWalk]
    rw [if_neg (by simp [segItv, h.1])]
    exact tiling_walk rest (s.1 + s.2) n h.2.2

theorem tiling_cover : ∀ (L : List (Nat × Nat)) (pos n : Nat), TilingFrom pos L n →
    ∀ i, pos ≤ i → i < n → ∃ s ∈ L, s.1 ≤ i ∧ i < s.1 + s.2
  | [], pos, n, h => by
    simp only [TilingFrom] at h
    intro i h1 h2
    omega
  | s :: rest, pos, n, h => by
    simp only [TilingFrom] at h
    intro i h1 h2
    by_cases hi : i < s.1 + s.2
    · exact ⟨s, by simp, by omega, hi⟩
    · obtain ⟨g, hg, hgi⟩ := tiling_cover rest (s.1 + s.2) n h.2.2 i (by omega) h2
      exact ⟨g, List.mem_cons_of_mem _ hg, hgi⟩

theorem dropWhile_head_false {α : Type} {p : α → Bool} :
    ∀ (l : List α) (b : α) (t : List α), l.dropWhile p = b :: t → p b = false := by
  intro l
  induction l with
  | nil => intro b t h; simp [List.dropWhile] at h
  | cons x xs ih =>
    intro b t h
    rw [List.dropWhile] at h
    cases hx : p x with
    | true => rw [hx] at h; exact ih b t h
    | false =>
      rw [hx] at h
      simp at h
      rw [← h.1]
      exact hx

theorem take_takeWhile_len {α : Type} (p : α → Bool) : ∀ (l : List α),
    l.take (l.takeWhile p).length = l.takeWhile p
  | [] => rfl
  | x :: xs => by
    by_cases hx : p x
    · rw [List.takeWhile_cons_of_pos hx]
      simp [List.take_succ_cons, take_takeWhile_len p xs]
    · rw [List.takeWhile_cons_of_neg hx]
      rfl

theorem drop_takeWhile_len {α : Type} (p : α → Bool) : ∀ (l : List α),
    l.drop (l.takeWhile p).length = l.dropWhile p
  | [] => rfl
  | x :: xs => by
    by_cases hx : p x
    · rw [List.takeWhile_cons_of_pos hx, List.dropWhile_cons_of_pos hx]
      simpa using drop_takeWhile_len p xs
    · rw [List.takeWhile_cons_of_neg hx, List.dropWhile_cons_of_neg hx]
      rfl

theorem mem_takeWhile_mem {α : Type} {p : α → Bool} {a : α} :
    ∀ {l : List α}, a ∈ l.takeWhile p → a ∈ l := by
  intro l
  induction l with
  | nil => intro h; simp at h
  | cons x xs ih =>
    intro h
    by_cases hx : p x
    · rw [List.takeWhile_cons_of_pos hx] at h
      rcases List.mem_cons.mp h with rfl | h2
      · simp
      · exact List.mem_cons_of_mem _ (ih h2)
    · rw [List.takeWhile_cons_of_neg hx] at h
      simp at h

theorem mem_dropWhile_mem {α : Type} {p : α → Bool} {a : α} :
    ∀ {l : List α}, a ∈ l.dropWhile p → a ∈ l := by
  intro l
  induction l with
  | nil => intro h; simp at h
  | cons x xs ih =>
    intro h
    by_cases hx : p x
    · rw [List.dropWhile_cons_of_pos hx] at h
      exact List.mem_cons_of_mem _ (ih h)
    · rw [List.dropWhile_cons_of_neg hx] at h
      exact h

theorem getD_decomp_left {α : Type} (L A B : List α) (d : α) (h : A ++ B = L) :
    ∀ k, k < A.length → L.getD k d = A.getD k d := by
  intro k hk
  rw [← h]
  exact List.getD_append _ _ _ _ hk

theorem getD_decomp_right {α : Type} (L A B : List α) (d : α) (h : A ++ B = L) :
    ∀ b t, B = b :: t → L.getD A.length d = b := by
  intro b t hbt
  rw [← h, List.getD_append_right _ _ _ _ (le_refl _), Nat.sub_self, hbt]
  rfl

theorem reasmInsert_accept (r1 : Reassembler) (id : Nat) (p : Bytes)
    (D : List (Nat × Nat)) (st : FragState) (s : Nat × Nat) (now : Nat)
    (hE : EntryInv p D st) (hs2 : 0 < s.2) (hsn : s.1 + s.2 ≤ p.length)
    (hdisj : ∀ d ∈ D, d.1 + d.2 ≤ s.1 ∨ s.1 + s.2 ≤ d.1) :
    ∃ st', reasmInsert r1 id st s.1 (sliceOf p s) now = reasmFinish r1 id st' ∧
      EntryInv p (s :: D) st' := by
  obtain ⟨hTot, hBuf, hChain, hPerm, hRecv, hCov⟩ := hE
  have hplen : (sliceOf p s).length = s.2 := length_sliceOf p s hsn
  have hsegd : ∀ g ∈ st.segments, g.1 < g.2 ∧ (g.2 ≤ s.1 ∨ s.1 + s.2 ≤ g.1) := by
    intro g hg
    refine ⟨hChain.1 g hg, ?_⟩
    obtain ⟨d, hd, he⟩ := List.mem_map.mp (hPerm.mem_iff.mp hg)
    rcases hdisj d hd with h1 | h1
    · left; rw [← he]; simpa [segItv] using h1
    · right; rw [← he]; simpa [segItv] using h1
  have hwl : (writeAt st.buf s.1 (sliceOf p s)).length = p.length := by
    rw [length_writeAt st.buf s.1 (sliceOf p s) (by rw [hplen, hBuf]; omega), hBuf]
  have hwcov : ∀ i, i < p.length → (∃ t ∈ s :: D, t.1 ≤ i ∧ i < t.1 + t.2) →
      (writeAt st.buf s.1 (sliceOf p s)).getD i 0 = p.getD i 0 := by
    intro i hi hex
    by_cases hin : s.1 ≤ i ∧ i < s.1 + s.2
    · rw [getD_writeAt_in st.buf s.1 (sliceOf p s) i hin.1 (by rw [hplen]; exact hin.2)
        (by rw [hplen, hBuf]; exact hsn)]
      rw [getD_sliceOf p s (i - s.1) (by omega)]
      rw [show s.1 + (i - s.1) = i from by omega]
    · rw [getD_writeAt_out st.buf s.1 (sliceOf p s) i (by rw [hplen]; omega)
        (by rw [hplen, hBuf]; exact hsn)]
      apply hCov i hi
      obtain ⟨t, ht, hti⟩ := hex
      rcases List.mem_cons.mp ht with rfl | ht'
      · exact absurd hti hin
      · exact ⟨t, ht', hti⟩
  have hrecv' : st.received + s.2 = lensSum (s :: D) := by
    rw [lensSum_cons, hRecv]; omega
  by_cases hfast : st.segments ≠ [] ∧ s.1 ≥ (st.segments.getLastD (0, 0)).2
  · -- fast path: append after the last segment
    refine ⟨{ st with buf := writeAt st.buf s.1 (sliceOf p s)
                      segments := st.segments ++ [(s.1, s.1 + s.2)]
                      received := st.received + s.2
                      updatedAt := now }, ?_, ?_⟩
    · simp only [reasmInsert, hplen]
      rw [if_pos hfast, if_neg (show ¬ s.1 + s.2 > st.buf.length from by
        rw [hBuf]; omega)]
    · refine ⟨hTot, hwl, ⟨?_, ?_⟩, ?_, hrecv', hwcov⟩
      · intro g hg
        rcases List.mem_append.mp hg with hg' | hg'
        · exact hChain.1 g hg'
        · simp at hg'
          rw [hg']
          simpa using hs2
      · refine List.chain'_append.mpr ⟨hChain.2, List.chain'_singleton _, ?_⟩
        intro a ha y hy
        simp at hy
        subst hy
        have hld : st.segments.getLastD (0, 0) = a := by
          rw [List.getLastD_eq_getLast? _ _, (ha : st.segments.getLast? = some a)]
          rfl
        have h2 := hfast.2
        rw [hld] at h2
        exact h2
      · simp only [List.map_cons]
        exact (List.perm_append_singleton _ _).trans (hPerm.cons _)
  · -- slow path: sort.Search insert
    have htk : st.segments.take (segSearch st.segments s.1) =
        st.segments.takeWhile (fun g => decide (g.1 < s.1)) := by
      rw [segSearch]
      exact take_takeWhile_len _ _
    have hdp : st.segments.drop (segSearch st.segments s.1) =
        st.segments.dropWhile (fun g => decide (g.1 < s.1)) := by
      rw [segSearch]
      exact drop_takeWhile_len _ _
    have hABm : st.segments.takeWhile (fun g => decide (g.1 < s.1)) ++
        st.segments.dropWhile (fun g => decide (g.1 < s.1)) = st.segments :=
      List.takeWhile_append_dropWhile _ _
    have hAmem : ∀ g ∈ st.segments.takeWhile (fun g => decide (g.1 < s.1)),
        g.1 < s.1 := by
      intro g hg
      have hp := List.mem_takeWhile_imp hg
      exact of_decide_eq_true hp
    have hBhead : ∀ b t, st.segments.dropWhile (fun g => decide (g.1 < s.1)) = b :: t →
        s.1 + s.2 ≤ b.1 := by
      intro b t hbt
      have hbB : b ∈ st.segments.dropWhile (fun g => decide (g.1 < s.1)) := by
        rw [hbt]; simp
      have hbseg : b ∈ st.segments := mem_dropWhile_mem hbB
      have hbp : ¬ b.1 < s.1 := of_decide_eq_false (dropWhile_head_false _ b t hbt)
      have hd := hsegd b hbseg
      rcases hd.2 with h2 | h2
      · omega
      · exact h2
    have hAlast : ∀ a, st.segments.takeWhile (fun g => decide (g.1 < s.1)) ≠ [] →
        (st.segments.takeWhile (fun g => decide (g.1 < s.1))).getLast? = some a →
        a.2 ≤ s.1 := by
      intro a hne ha
      have haA : a ∈ st.segments.takeWhile (fun g => decide (g.1 < s.1)) :=
        List.mem_of_mem_getLast? ha
      have haseg : a ∈ st.segments := mem_takeWhile_mem haA
      have ha1 : a.1 < s.1 := hAmem a haA
      have hd := hsegd a haseg
      rcases hd.2 with h2 | h2
      · exact h2
      · omega
    have hc1 : ¬(segSearch st.segments s.1 > 0 ∧
        s.1 < (st.segments.getD (segSearch st.segments s.1 - 1) (0, 0)).2) := by
      rintro ⟨hpos, hlt⟩
      rw [segSearch] at hpos hlt
      have ha_lt : (st.segments.takeWhile (fun g => decide (g.1 < s.1))).length - 1 <
          (st.segments.takeWhile (fun g => decide (g.1 < s.1))).length := by omega
      have hgd := getD_decomp_left st.segments _ _ (0, 0) hABm _ ha_lt
      have haA : (st.segments.takeWhile (fun g => decide (g.1 < s.1))).getD
          ((st.segments.takeWhile (fun g => decide (g.1 < s.1))).length - 1) (0, 0) ∈
          st.segments.takeWhile (fun g => decide (g.1 < s.1)) := by
        rw [List.getD_eq_getElem _ _ ha_lt]
        exact List.getElem_mem ha_lt
      have haseg : (st.segments.takeWhile (fun g => decide (g.1 < s.1))).getD
          ((st.segments.takeWhile (fun g => decide (g.1 < s.1))).length - 1) (0, 0) ∈
          st.segments := mem_takeWhile_mem haA
      have ha1 := hAmem _ haA
      have hd := hsegd _ haseg
      rw [hgd] at hlt
      rcases hd.2 with h2 | h2
      · omega
      · omega
    have hc2 : ¬(segSearch st.segments s.1 < st.segments.length ∧
        (st.segments.getD (segSearch st.segments s.1) (0, 0)).1 < s.1 + s.2) := by
      rintro ⟨hlt, hstart⟩
      rw [segSearch] at hlt hstart
      have hBne : st.segments.dropWhile (fun g => decide (g.1 < s.1)) ≠ [] := by
        intro hB
        have hsum := congrArg List.length hABm
        rw [List.length_append, hB] at hsum
        simp at hsum
        omega
      obtain ⟨b, t, hbt⟩ := List.exists_cons_of_ne_nil hBne
      have hgd := getD_decomp_right st.segments _ _ (0, 0) hABm b t hbt
      have hb1 := hBhead b t hbt
      rw [hgd] at hstart
      omega
    refine ⟨{ st with buf := writeAt st.buf s.1 (sliceOf p s)
                      segments :=
                        st.segments.takeWhile (fun g => decide (g.1 < s.1)) ++
                          [(s.1, s.1 + s.2)] ++
                          st.segments.dropWhile (fun g => decide (g.1 < s.1))
                      received := st.received + s.2
                      updatedAt := now }, ?_, ?_⟩
    · simp only [reasmInsert, hplen]
      rw [if_neg hfast, if_neg hc1, if_neg hc2,
        if_neg (show ¬ s.1 + s.2 > st.buf.length from by rw [hBuf]; omega),
        htk, hdp]
    · have hshape : st.segments.takeWhile (fun g => decide (g.1 < s.1)) ++
          [(s.1, s.1 + s.2)] ++ st.segments.dropWhile (fun g => decide (g.1 < s.1)) =
          st.segments.takeWhile (fun g => decide (g.1 < s.1)) ++
          ((s.1, s.1 + s.2) :: st.segments.dropWhile (fun g => decide (g.1 < s.1))) := by
        simp
      refine ⟨hTot, hwl, ⟨?_, ?_⟩, ?_, hrecv', hwcov⟩
      · intro g hg
        rcases List.mem_append.mp hg with hg' | hg'
        · rcases List.mem_append.mp hg' with hg'' | hg''
          · exact hChain.1 g (mem_takeWhile_mem hg'')
          · simp at hg''
            rw [hg'']
            simpa using hs2
        · exact hChain.1 g (mem_dropWhile_mem hg')
      · rw [hshape]
        have hCAB : List.Chain' (fun a b => a.2 ≤ b.1)
            (st.segments.takeWhile (fun g => decide (g.1 < s.1)) ++
              st.segments.dropWhile (fun g => decide (g.1 < s.1))) := by
          rw [hABm]; exact hChain.2
        obtain ⟨hCA, hCB, _⟩ := List.chain'_append.mp hCAB
        refine List.chain'_append.mpr ⟨hCA, ?_, ?_⟩
        · refine List.chain'_cons'.mpr ⟨?_, hCB⟩
          intro y hy
          cases hBc : st.segments.dropWhile (fun g => decide (g.1 < s.1)) with
          | nil => rw [hBc] at hy; simp at hy
          | cons b t =>
            rw [hBc] at hy
            simp at hy
            subst hy
            exact hBhead _ _ hBc
        · intro a ha y hy
          simp at hy
          subst hy
          exact hAlast a (by
            intro hA0
            rw [hA0] at ha
            simp at ha) ha
      · rw [hshape]
        refine List.perm_middle.trans ?_
        rw [hABm]
        simp only [List.map_cons]
        exact hPerm.cons _

theorem reasmPush_step (r : Reassembler) (p : Bytes) (id : Nat) (D : List (Nat × Nat))
    (s : Nat × Nat) (now : Nat)
    (hME : 2 ≤ r.maxEntries) (hMT : r.maxTotal = 0 ∨ p.length ≤ r.maxTotal)
    (hn : 0 < p.length) (hn32 : p.length < 2 ^ 32) (hid : id < 2 ^ 32)
    (hinv : RInv r p id D)
    (hs2 : 0 < s.2) (hsn : s.1 + s.2 ≤ p.length)
    (hdisj : ∀ d ∈ D, d.1 + d.2 ≤ s.1 ∨ s.1 + s.2 ≤ d.1) :
    (lensSum (s :: D) < p.length →
      ∃ st2, reasmPush r now (mkFragBytes id p s) =
          (.ok none, { r with frags := [(id, st2)] }) ∧ EntryInv p (s :: D) st2) ∧
    (∀ PT, TilingFrom 0 PT p.length → (s :: D).Perm PT →
      reasmPush r now (mkFragBytes id p s) = (.ok (some p), { r with frags := [] })) := by
  have hdec : decodeFragmentHeader (mkFragBytes id p s) =
      .ok (id, s.1, p.length, sliceOf p s) := by
    rw [mkFragBytes]
    exact decodeFragmentHeader_roundTrip id s.1 p.length (sliceOf p s) hid (by omega) hn32
  obtain ⟨st0, hst0E, hins, hput, hdel⟩ :
      ∃ st0, EntryInv p D st0 ∧
        (reasmPush r now (mkFragBytes id p s) =
          reasmInsert r id st0 s.1 (sliceOf p s) now) ∧
        (∀ v : FragState, mapPut r.frags id v = [(id, v)]) ∧
        mapDel r.frags id = [] := by
    rcases hinv with ⟨hD, hfr⟩ | ⟨hD, st, hfr, hE⟩
    · subst hD
      refine ⟨{ total := p.length
                received := 0
                updatedAt := now
                buf := List.replicate p.length 0
                segments := [] }, ?_, ?_, ?_, ?_⟩
      · refine ⟨rfl, by simp, segChain_nil, by simp, rfl, ?_⟩
        intro i hi hex
        obtain ⟨t, ht, _⟩ := hex
        simp at ht
      · simp only [reasmPush, hdec]
        rw [if_neg (show ¬ p.length = 0 from by omega)]
        rw [if_neg (show ¬ (r.maxTotal > 0 ∧ p.length > r.maxTotal) from by
          rcases hMT with h | h <;> omega)]
        rw [if_neg (show ¬ s.1 + (sliceOf p s).length > p.length from by
          rw [length_sliceOf p s hsn]; omega)]
        rw [hfr]
        rw [if_neg (show ¬ ([] : List (Nat × FragState)).length ≥ r.maxEntries from by
          simp; omega)]
        rw [hfr]
        simp only [mapGet_nil]
      · intro v
        rw [hfr]
        rfl
      · rw [hfr]
        rfl
    · refine ⟨st, hE, ?_, ?_, ?_⟩
      · simp only [reasmPush, hdec]
        rw [if_neg (show ¬ p.length = 0 from by omega)]
        rw [if_neg (show ¬ (r.maxTotal > 0 ∧ p.length > r.maxTotal) from by
          rcases hMT with h | h <;> omega)]
        rw [if_neg (show ¬ s.1 + (sliceOf p s).length > p.length from by
          rw [length_sliceOf p s hsn]; omega)]
        rw [hfr]
        rw [if_neg (show ¬ ([(id, st)] : List (Nat × FragState)).length ≥ r.maxEntries
          from by simp; omega)]
        rw [hfr]
        simp only [mapGet_single]
      · intro v
        rw [hfr]
        exact mapPut_single id st v
      · rw [hfr]
        exact mapDel_single id st
  obtain ⟨st', hins2, hE'⟩ := reasmInsert_accept r id p D st0 s now hst0E hs2 hsn hdisj
  rw [hins2] at hins
  obtain ⟨hTot', hBuf', hChain', hPerm', hRecv', hCov'⟩ := hE'
  constructor
  · intro hlt
    refine ⟨st', ?_, ⟨hTot', hBuf', hChain', hPerm', hRecv', hCov'⟩⟩
    rw [hins, reasmFinish]
    rw [if_pos (show st'.received < st'.total from by rw [hRecv', hTot']; exact hlt)]
    rw [hput st']
  · intro PT hPT hperm
    have hlen : lensSum (s :: D) = p.length := by
      have h1 := lensSum_perm hperm
      have h2 := tiling_lensSum PT 0 p.length hPT
      omega
    have hsegeq : st'.segments = PT.map segItv := by
      refine segChain_perm_eq _ _ hChain' (tiling_chain PT 0 p.length hPT) ?_
      exact hPerm'.trans (hperm.map _)
    have hwalk : assembleWalk 0 st'.segments = some p.length := by
      rw [hsegeq]; exact tiling_walk PT 0 p.length hPT
    have hbufp : st'.buf = p := by
      refine List.ext_getElem (by rw [hBuf']) ?_
      intro i h1 h2
      have hcV : st'.buf.getD i 0 = p.getD i 0 := by
        refine hCov' i h2 ?_
        obtain ⟨t, htPT, hti⟩ := tiling_cover PT 0 p.length hPT i (by omega) h2
        exact ⟨t, hperm.mem_iff.mpr htPT, hti⟩
      rw [List.getD_eq_getElem _ _ h1, List.getD_eq_getElem _ _ h2] at hcV
      exact hcV
    have hasm : assembleF st' = .ok p := by
      rw [assembleF]
      rw [if_neg (show ¬ st'.received ≠ st'.total from by
        rw [hRecv', hTot', hlen]; simp)]
      simp only [hwalk]
      rw [if_neg (show ¬ p.length ≠ st'.total from by rw [hTot']; simp), hbufp]
    rw [hins, reasmFinish]
    rw [if_neg (show ¬ st'.received < st'.total from by
      rw [hRecv', hTot', hlen]; omega)]
    simp only [hasm]
    rw [hdel]

theorem reasmPushAll_nil (r : Reassembler) (now : Nat) :
    reasmPushAll r now [] = (r, []) := rfl

theorem reasmPushAll_cons (r : Reassembler) (now : Nat) (b : Bytes) (bs : List Bytes) :
    reasmPushAll r now (b :: bs) =
      ((reasmPushAll (reasmPush r now b).2 now bs).1,
        (reasmPush r now b).1 :: (reasmPushAll (reasmPush r now b).2 now bs).2) := rfl

theorem reasmPushAll_run (p : Bytes) (id now : Nat) (PT : List (Nat × Nat))
    (hT : TilingFrom 0 PT p.length) (hn : 0 < p.length) (hn32 : p.length < 2 ^ 32)
    (hid : id < 2 ^ 32) :
    ∀ (Q D : List (Nat × Nat)) (r : Reassembler),
      2 ≤ r.maxEntries → (r.maxTotal = 0 ∨ p.length ≤ r.maxTotal) →
      (D ++ Q).Perm PT → RInv r p id D → Q ≠ [] →
      (reasmPushAll r now (Q.map (mkFragBytes id p))).2 =
          List.replicate (Q.length - 1) (ROut.ok none) ++ [ROut.ok (some p)] ∧
        (reasmPushAll r now (Q.map (mkFragBytes id p))).1.frags = [] := by
  intro Q
  induction Q with
  | nil =>
    intro D r _ _ _ _ hQ
    exact absurd rfl hQ
  | cons s Q' ih =>
    intro D r hME hMT hperm hinv _
    have hsPT : s ∈ PT := hperm.mem_iff.mp (by simp)
    have hsb := tiling_mem PT 0 p.length hT s hsPT
    have hpair : (D ++ s :: Q').Pairwise
        (fun a b => a.1 + a.2 ≤ b.1 ∨ b.1 + b.2 ≤ a.1) := by
      have h1 : PT.Pairwise (fun a b => a.1 + a.2 ≤ b.1 ∨ b.1 + b.2 ≤ a.1) :=
        (tiling_pairwise PT 0 p.length hT).imp (fun h => Or.inl h)
      exact (hperm.pairwise_iff (fun hxy => Or.symm hxy)).mpr h1
    have hdisj : ∀ d ∈ D, d.1 + d.2 ≤ s.1 ∨ s.1 + s.2 ≤ d.1 := by
      intro d hd
      exact (List.pairwise_append.mp hpair).2.2 d hd s (by simp)
    have step := reasmPush_step r p id D s now hME hMT hn hn32 hid hinv
      hsb.2.1 hsb.2.2 hdisj
    cases Q' with
    | nil =>
      have hperm1 : (s :: D).Perm PT :=
        ((List.perm_append_singleton s D).symm).trans hperm
      have hpush := step.2 PT hT hperm1
      constructor
      · rw [List.map_cons, List.map_nil, reasmPushAll_cons, hpush]
        rfl
      · rw [List.map_cons, List.map_nil, reasmPushAll_cons, hpush]
        rfl
    | cons s2 Q2 =>
      have hs2PT : s2 ∈ PT := hperm.mem_iff.mp (by simp)
      have hs2b := tiling_mem PT 0 p.length hT s2 hs2PT
      have hlt : lensSum (s :: D) < p.length := by
        have e0 := tiling_lensSum PT 0 p.length hT
        have e1 := lensSum_perm hperm
        have e2 := lensSum_append D (s :: s2 :: Q2)
        have e3 := lensSum_cons s (s2 :: Q2)
        have e4 := lensSum_cons s2 Q2
        have e5 := lensSum_cons s D
        have e6 := hs2b.2.1
        omega
      obtain ⟨st2, hpush, hE2⟩ := step.1 hlt
      have hinv2 : RInv { r with frags := [(id, st2)] } p id (s :: D) :=
        Or.inr ⟨by simp, st2, rfl, hE2⟩
      have hperm2 : ((s :: D) ++ s2 :: Q2).Perm PT :=
        (List.perm_middle.symm).trans hperm
      have ihh := ih (s :: D) { r with frags := [(id, st2)] } hME hMT hperm2 hinv2
        (by simp)
      constructor
      · rw [List.map_cons, reasmPushAll_cons, hpush]
        show ROut.ok none :: (reasmPushAll { r with frags := [(id, st2)] } now
            ((s2 :: Q2).map (mkFragBytes id p))).2 = _
        rw [ihh.1]
        rw [show (s :: s2 :: Q2 : List (Nat × Nat)).length - 1 =
          ((s2 :: Q2 : List (Nat × Nat)).length - 1) + 1 from by simp]
        rw [List.replicate_succ, List.cons_append]
      · rw [List.map_cons, reasmPushAll_cons, hpush]
        exact ihh.2

theorem reasmPushAll_part (p : Bytes) (id now : Nat) (PT : List (Nat × Nat))
    (hT : TilingFrom 0 PT p.length) (hn : 0 < p.length) (hn32 : p.length < 2 ^ 32)
    (hid : id < 2 ^ 32) :
    ∀ (Q D R : List (Nat × Nat)) (r : Reassembler),
      2 ≤ r.maxEntries → (r.maxTotal = 0 ∨ p.length ≤ r.maxTotal) →
      ((D ++ Q) ++ R).Perm PT → R ≠ [] → RInv r p id D →
      (reasmPushAll r now (Q.map (mkFragBytes id p))).2 =
          List.replicate Q.length (ROut.ok none) ∧
        (∃ D2, D2.Perm (D ++ Q) ∧
          RInv (reasmPushAll r now (Q.map (mkFragBytes id p))).1 p id D2) ∧
        (reasmPushAll r now (Q.map (mkFragBytes id p))).1.maxEntries = r.maxEntries ∧
        (reasmPushAll r now (Q.map (mkFragBytes id p))).1.maxTotal = r.maxTotal := by
  intro Q
  induction Q with
  | nil =>
    intro D R r hME hMT hperm hR hinv
    exact ⟨rfl, ⟨D, by simp, hinv⟩, rfl, rfl⟩
  | cons s Q' ih =>
    intro D R r hME hMT hperm hR hinv
    have hsPT : s ∈ PT := hperm.mem_iff.mp (by simp)
    have hsb := tiling_mem PT 0 p.length hT s hsPT
    have hpair : ((D ++ s :: Q') ++ R).Pairwise
        (fun a b => a.1 + a.2 ≤ b.1 ∨ b.1 + b.2 ≤ a.1) := by
      have h1 : PT.Pairwise (fun a b => a.1 + a.2 ≤ b.1 ∨ b.1 + b.2 ≤ a.1) :=
        (tiling_pairwise PT 0 p.length hT).imp (fun h => Or.inl h)
      exact (hperm.pairwise_iff (fun hxy => Or.symm hxy)).mpr h1
    have hdisj : ∀ d ∈ D, d.1 + d.2 ≤ s.1 ∨ s.1 + s.2 ≤ d.1 := by
      intro d hd
      have h2 := (List.pairwise_append.mp
        (List.pairwise_append.mp hpair).1).2.2 d hd s (by simp)
      exact h2
    obtain ⟨rh, rt, hRc⟩ := List.exists_cons_of_ne_nil hR
    have hrPT : rh ∈ PT := hperm.mem_iff.mp (by rw [hRc]; simp)
    have hrb := tiling_mem PT 0 p.length hT rh hrPT
    have hlt : lensSum (s :: D) < p.length := by
      have e0 := tiling_lensSum PT 0 p.length hT
      have e1 := lensSum_perm hperm
      have eA := lensSum_append (D ++ s :: Q') R
      have eB := lensSum_append D (s :: Q')
      have eC := lensSum_cons s Q'
      have eD := lensSum_cons s D
      have eF : lensSum R = rh.2 + lensSum rt := by rw [hRc, lensSum_cons]
      have e6 := hrb.2.1
      omega
    have step := reasmPush_step r p id D s now hME hMT hn hn32 hid hinv
      hsb.2.1 hsb.2.2 hdisj
    obtain ⟨st2, hpush, hE2⟩ := step.1 hlt
    have hinv2 : RInv { r with frags := [(id, st2)] } p id (s :: D) :=
      Or.inr ⟨by simp, st2, rfl, hE2⟩
    have hperm2 : (((s :: D) ++ Q') ++ R).Perm PT := by
      refine List.Perm.trans ?_ hperm
      show (s :: ((D ++ Q') ++ R)).Perm ((D ++ s :: Q') ++ R)
      rw [List.append_assoc D Q' R, List.append_assoc D (s :: Q') R]
      exact List.perm_middle.symm
    have ihh := ih (s :: D) R { r with frags := [(id, st2)] } hME hMT hperm2 hR hinv2
    refine ⟨?_, ?_, ?_, ?_⟩
    · rw [List.map_cons, reasmPushAll_cons, hpush]
      show ROut.ok none :: (reasmPushAll { r with frags := [(id, st2)] } now
          (Q'.map (mkFragBytes id p))).2 = _
      rw [ihh.1]
      rfl
    · obtain ⟨D2, hD2p, hD2i⟩ := ihh.2.1
      refine ⟨D2, ?_, ?_⟩
      · exact hD2p.trans List.perm_middle.symm
      · rw [List.map_cons, reasmPushAll_cons, hpush]
        exact hD2i
    · rw [List.map_cons, reasmPushAll_cons, hpush]
      exact ihh.2.2.1
    · rw [List.map_cons, reasmPushAll_cons, hpush]
      exact ihh.2.2.2

theorem reasmPush_overlap (r : Reassembler) (p : Bytes) (id : Nat)
    (D : List (Nat × Nat)) (sx : Nat × Nat) (now : Nat)
    (hME : 2 ≤ r.maxEntries) (hMT : r.maxTotal = 0 ∨ p.length ≤ r.maxTotal)
    (hn : 0 < p.length) (hn32 : p.length < 2 ^ 32) (hid : id < 2 ^ 32)
    (hinv : RInv r p id D) (hD : D ≠ [])
    (hs2 : 0 < sx.2) (hsn : sx.1 + sx.2 ≤ p.length)
    (hov : ∃ d ∈ D, sx.1 < d.1 + d.2 ∧ d.1 < sx.1 + sx.2) :
    (reasmPush r now (mkFragBytes id p sx)).1 = .err .fragmentOverlap := by
  rcases hinv with ⟨hD0, _⟩ | ⟨_, st, hfr, hE⟩
  · exact absurd hD0 hD
  obtain ⟨hTot, hBuf, hChain, hPerm, hRecv, hCov⟩ := hE
  have hdec : decodeFragmentHeader (mkFragBytes id p sx) =
      .ok (id, sx.1, p.length, sliceOf p sx) := by
    rw [mkFragBytes]
    exact decodeFragmentHeader_roundTrip id sx.1 p.length (sliceOf p sx) hid
      (by omega) hn32
  have hplen : (sliceOf p sx).length = sx.2 := length_sliceOf p sx hsn
  obtain ⟨d, hd, hov1, hov2⟩ := hov
  have hgseg : segItv d ∈ st.segments := hPerm.mem_iff.mpr (List.mem_map_of_mem _ hd)
  have hins : reasmPush r now (mkFragBytes id p sx) =
      reasmInsert r id st sx.1 (sliceOf p sx) now := by
    simp only [reasmPush, hdec]
    rw [if_neg (show ¬ p.length = 0 from by omega)]
    rw [if_neg (show ¬ (r.maxTotal > 0 ∧ p.length > r.maxTotal) from by
      rcases hMT with h | h <;> omega)]
    rw [if_neg (show ¬ sx.1 + (sliceOf p sx).length > p.length from by
      rw [hplen]; omega)]
    rw [hfr]
    rw [if_neg (show ¬ ([(id, st)] : List (Nat × FragState)).length ≥ r.maxEntries
      from by simp; omega)]
    rw [hfr]
    simp only [mapGet_single]
  rw [hins]
  simp only [reasmInsert, hplen]
  rw [if_neg (show ¬ (st.segments ≠ [] ∧ sx.1 ≥ (st.segments.getLastD (0, 0)).2)
    from by
      rintro ⟨hne, hge⟩
      have hub := segChain_last_ub hChain (segItv d) hgseg
      simp only [segItv] at hub
      omega)]
  have hABm : st.segments.takeWhile (fun g => decide (g.1 < sx.1)) ++
      st.segments.dropWhile (fun g => decide (g.1 < sx.1)) = st.segments :=
    List.takeWhile_append_dropWhile _ _
  have hCAB : List.Chain' (fun a b => a.2 ≤ b.1)
      (st.segments.takeWhile (fun g => decide (g.1 < sx.1)) ++
        st.segments.dropWhile (fun g => decide (g.1 < sx.1))) := by
    rw [hABm]; exact hChain.2
  have hgAB : segItv d ∈ st.segments.takeWhile (fun g => decide (g.1 < sx.1)) ++
      st.segments.dropWhile (fun g => decide (g.1 < sx.1)) := by
    rw [hABm]; exact hgseg
  by_cases hc1 : segSearch st.segments sx.1 > 0 ∧
      sx.1 < (st.segments.getD (segSearch st.segments sx.1 - 1) (0, 0)).2
  · rw [if_pos hc1]
  · rw [if_neg hc1]
    by_cases hdlt : d.1 < sx.1
    · exfalso
      apply hc1
      have hgA : segItv d ∈ st.segments.takeWhile (fun g => decide (g.1 < sx.1)) := by
        rcases List.mem_append.mp hgAB with hgA | hgB
        · exact hgA
        · exfalso
          obtain ⟨b, t, hbt⟩ := List.exists_cons_of_ne_nil (List.ne_nil_of_mem hgB)
          have hbp : ¬ b.1 < sx.1 := of_decide_eq_false (dropWhile_head_false _ b t hbt)
          have hCB : SegChain (b :: t) := by
            refine ⟨?_, ?_⟩
            · intro g hg
              have hg2 : g ∈ st.segments.dropWhile (fun gg => decide (gg.1 < sx.1)) := by
                rw [hbt]
                exact hg
              exact hChain.1 g (mem_dropWhile_mem hg2)
            · rw [← hbt]
              exact (List.chain'_append.mp hCAB).2.1
          have hstart := segChain_start_lb hCB (segItv d) (by rw [← hbt]; exact hgB)
          simp only [segItv] at hstart
          omega
      have hAne : st.segments.takeWhile (fun g => decide (g.1 < sx.1)) ≠ [] :=
        List.ne_nil_of_mem hgA
      have hApos : 0 < (st.segments.takeWhile (fun g => decide (g.1 < sx.1))).length :=
        List.length_pos.mpr hAne
      have hCA : SegChain (st.segments.takeWhile (fun g => decide (g.1 < sx.1))) := by
        refine ⟨?_, (List.chain'_append.mp hCAB).1⟩
        intro g hg
        exact hChain.1 g (mem_takeWhile_mem hg)
      have hub := segChain_last_ub hCA (segItv d) hgA
      have hlast : ((st.segments.takeWhile (fun g => decide (g.1 < sx.1))).getLastD
          (0, 0)) = (st.segments.takeWhile (fun g => decide (g.1 < sx.1))).getD
            ((st.segments.takeWhile (fun g => decide (g.1 < sx.1))).length - 1)
            (0, 0) := by
        rw [List.getLastD_eq_getLast? _ _, List.getLast?_eq_getLast _ hAne,
          List.getD_eq_getElem _ _ (by omega), List.getLast_eq_getElem _ hAne]
        rfl
      have hgd := getD_decomp_left st.segments _ _ (0, 0) hABm
        ((st.segments.takeWhile (fun g => decide (g.1 < sx.1))).length - 1) (by omega)
      constructor
      · rw [segSearch]
        exact hApos
      · rw [segSearch, hgd, ← hlast]
        simp only [segItv] at hub
        omega
    · have hgB : segItv d ∈ st.segments.dropWhile (fun g => decide (g.1 < sx.1)) := by
        rcases List.mem_append.mp hgAB with hgA | hgB
        · exfalso
          have hp := List.mem_takeWhile_imp hgA
          have := of_decide_eq_true hp
          simp only [segItv] at this
          omega
        · exact hgB
      obtain ⟨b, t, hbt⟩ := List.exists_cons_of_ne_nil (List.ne_nil_of_mem hgB)
      have hCB : SegChain (b :: t) := by
        refine ⟨?_, ?_⟩
        · intro g hg
          have hg2 : g ∈ st.segments.dropWhile (fun gg => decide (gg.1 < sx.1)) := by
            rw [hbt]
            exact hg
          exact hChain.1 g (mem_dropWhile_mem hg2)
        · rw [← hbt]
          exact (List.chain'_append.mp hCAB).2.1
      have hbled : b.1 ≤ d.1 := by
        have := segChain_start_lb hCB (segItv d) (by rw [← hbt]; exact hgB)
        simpa [segItv] using this
      have hgd := getD_decomp_right st.segments _ _ (0, 0) hABm b t hbt
      have hlensum := congrArg List.length hABm
      rw [List.length_append, hbt] at hlensum
      rw [if_pos (show segSearch st.segments sx.1 < st.segments.length ∧
          (st.segments.getD (segSearch st.segments sx.1) (0, 0)).1 < sx.1 + sx.2
        from by
          constructor
          · rw [segSearch]
            simp at hlensum
            omega
          · rw [segSearch, hgd]
            omega)]

/-- C5: for a payload `p` of positive length within the reassembler's
`maxTotal` cap, partitioned by `PT` into consecutive non-empty pieces
exactly tiling `[0, p.length)` and delivered as fragments under one
fresh id in an arbitrary order `Q`: (a) when the full set is delivered,
every push before the last returns no payload and no error, the push
completing the set returns exactly `p`, and the entry is dropped;
(b) when a non-empty remainder `R` is still missing, every push returns
no payload and no error (an incomplete set never yields a payload); and
(c) from such a partial state, pushing a fragment of the same id whose
interval overlaps an already-accepted piece fails with
`FragmentOverlap`. -/
theorem reassemblerSound (p : Bytes) (PT Q : List (Nat × Nat)) (id now : Nat)
    (r : Reassembler)
    (hn : 0 < p.length) (hn32 : p.length < 2 ^ 32) (hid : id < 2 ^ 32)
    (hME : 2 ≤ r.maxEntries) (hMT : r.maxTotal = 0 ∨ p.length ≤ r.maxTotal)
    (hfr : r.frags = []) (hT : TilingFrom 0 PT p.length) :
    (Q.Perm PT → Q ≠ [] →
      (reasmPushAll r now (Q.map (mkFragBytes id p))).2 =
          List.replicate (Q.length - 1) (ROut.ok none) ++ [ROut.ok (some p)] ∧
        (reasmPushAll r now (Q.map (mkFragBytes id p))).1.frags = []) ∧
    (∀ R, (Q ++ R).Perm PT → R ≠ [] →
      (reasmPushAll r now (Q.map (mkFragBytes id p))).2 =
        List.replicate Q.length (ROut.ok none)) ∧
    (∀ R sx, (Q ++ R).Perm PT → R ≠ [] → Q ≠ [] →
      0 < sx.2 → sx.1 + sx.2 ≤ p.length →
      (∃ d ∈ Q, sx.1 < d.1 + d.2 ∧ d.1 < sx.1 + sx.2) →
      (reasmPush (reasmPushAll r now (Q.map (mkFragBytes id p))).1 now
        (mkFragBytes id p sx)).1 = .err .fragmentOverlap) := by
  have hinv0 : RInv r p id [] := Or.inl ⟨rfl, hfr⟩
  refine ⟨?_, ?_, ?_⟩
  · intro hQP hQne
    exact reasmPushAll_run p id now PT hT hn hn32 hid Q [] r hME hMT hQP hinv0 hQne
  · intro R hQR hRne
    exact (reasmPushAll_part p id now PT hT hn hn32 hid Q [] R r hME hMT hQR
      hRne hinv0).1
  · intro R sx hQR hRne hQne h1 h2 hov
    have hp := reasmPushAll_part p id now PT hT hn hn32 hid Q [] R r hME hMT hQR
      hRne hinv0
    obtain ⟨D2, hD2p, hD2i⟩ := hp.2.1
    have hD2Q : D2.Perm Q := hD2p
    have hD2ne : D2 ≠ [] := by
      intro h0
      rw [h0] at hD2Q
      exact hQne (hD2Q.symm.eq_nil)
    obtain ⟨d, hdQ, ho1, ho2⟩ := hov
    have hdD2 : d ∈ D2 := hD2Q.mem_iff.mpr hdQ
    exact reasmPush_overlap _ p id D2 sx now
      (by rw [hp.2.2.1]; exact hME)
      (by rw [hp.2.2.2]; exact hMT)
      hn hn32 hid hD2i hD2ne h1 h2 ⟨d, hdD2, ho1, ho2⟩

theorem reassemblerSound_witness :
    (0 < ([1, 2, 3, 4] : Bytes).length ∧ ([1, 2, 3, 4] : Bytes).length < 2 ^ 32 ∧
      7 < 2 ^ 32 ∧ 2 ≤ (newReassembler 0 0 0).maxEntries ∧
      ((newReassembler 0 0 0).maxTotal = 0 ∨
        ([1, 2, 3, 4] : Bytes).length ≤ (newReassembler 0 0 0).maxTotal) ∧
      (newReassembler 0 0 0).frags = [] ∧
      TilingFrom 0 [(0, 2), (2, 2)] ([1, 2, 3, 4] : Bytes).length ∧
      ([(2, 2), (0, 2)] : List (Nat × Nat)).Perm [(0, 2), (2, 2)]) ∧
    ((reasmPushAll (newReassembler 0 0 0) 0
        (([(2, 2), (0, 2)] : List (Nat × Nat)).map (mkFragBytes 7 [1, 2, 3, 4]))).2 =
        List.replicate (([(2, 2), (0, 2)] : List (Nat × Nat)).length - 1)
          (ROut.ok none) ++ [ROut.ok (some [1, 2, 3, 4])] ∧
      (reasmPushAll (newReassembler 0 0 0) 0
        (([(2, 2), (0, 2)] : List (Nat × Nat)).map
          (mkFragBytes 7 [1, 2, 3, 4]))).1.frags = []) :=
  ⟨⟨by decide, by decide, by decide, by decide, by decide, by decide, by decide,
    by decide⟩,
    (reassemblerSound [1, 2, 3, 4] [(0, 2), (2, 2)] [(2, 2), (0, 2)] 7 0
      (newReassembler 0 0 0) (by decide) (by decide) (by decide) (by decide)
      (by decide) (by decide) (by decide)).1 (by decide) (by decide)⟩

theorem length_leBytes (w v : Nat) : (leBytes w v).length = w := by
  induction w generalizing v with
  | zero => rfl
  | succ n ih => simp [leBytes, ih]

theorem length_chachaQR (st : List Nat) (a b c d : Nat) :
    (chachaQR st a b c d).length = st.length := by
  simp [chachaQR]

theorem length_chachaDoubleRound (st : List Nat) :
    (chachaDoubleRound st).length = st.length := by
  simp [chachaDoubleRound, length_chachaQR]

theorem length_chachaDR_iter : ∀ (n : Nat) (st : List Nat),
    (chachaDoubleRound^[n] st).length = st.length
  | 0, _ => rfl
  | n + 1, st => by
    rw [Function.iterate_succ_apply, length_chachaDR_iter n _,
      length_chachaDoubleRound]

theorem length_chachaInit (key : Bytes) (counter : Nat) (nonce : Bytes) :
    (chachaInit key counter nonce).length = 16 := by
  simp [chachaInit]

theorem flatMap_leBytes_len : ∀ (l : List Nat),
    (l.flatMap (leBytes 4)).length = 4 * l.length
  | [] => rfl
  | x :: xs => by
    rw [List.flatMap_cons, List.length_append, length_leBytes,
      flatMap_leBytes_len xs, List.length_cons]
    ring

theorem length_chachaBlock (key : Bytes) (counter : Nat) (nonce : Bytes) :
    (chachaBlock key counter nonce).length = 64 := by
  simp only [chachaBlock]
  rw [flatMap_leBytes_len, List.length_zipWith, length_chachaDR_iter,
    length_chachaInit]
  norm_num

theorem chachaKeystream_blocks_len (key nonce : Bytes) : ∀ (l : List Nat),
    (l.flatMap (fun i => chachaBlock key (1 + i) nonce)).length = 64 * l.length
  | [] => rfl
  | x :: xs => by
    rw [List.flatMap_cons, List.length_append, length_chachaBlock,
      chachaKeystream_blocks_len key nonce xs, List.length_cons]
    ring

theorem length_chachaKeystream (key nonce : Bytes) (len : Nat) :
    (chachaKeystream key nonce len).length = len := by
  simp only [chachaKeystream]
  rw [List.length_take, chachaKeystream_blocks_len, List.length_range]
  have h1 := Nat.div_add_mod (len + 63) 64
  have h2 : (len + 63) % 64 < 64 := Nat.mod_lt _ (by norm_num)
  omega

theorem length_xorBytes (a b : Bytes) :
    (xorBytes a b).length = min a.length b.length := by
  simp [xorBytes]

theorem xorBytes_cancel : ∀ (a b : Bytes), a.length ≤ b.length →
    xorBytes (xorBytes a b) b = a
  | [], _, _ => rfl
  | x :: xs, [], h => by simp at h
  | x :: xs, y :: ys, h => by
    show ((x ^^^ y) ^^^ y) :: xorBytes (xorBytes xs ys) ys = x :: xs
    rw [Nat.xor_cancel_right,
      xorBytes_cancel xs ys (by simp only [List.length_cons] at h; omega)]

theorem length_aeadSeal (key nonce pt aad : Bytes) :
    (aeadSeal key nonce pt aad).length = pt.length + 16 := by
  simp only [aeadSeal]
  rw [List.length_append, length_xorBytes, length_chachaKeystream]
  simp only [poly1305]
  rw [length_leBytes]
  simp

theorem aeadSeal_red (key nonce pt aad : Bytes) :
    aeadSeal key nonce pt aad =
      xorBytes pt (chachaKeystream key nonce pt.length) ++
        poly1305 (aeadPolyKey key nonce)
          (macData aad (xorBytes pt (chachaKeystream key nonce pt.length))) := rfl

theorem aeadOpen_aeadSeal (key nonce pt aad : Bytes) :
    aeadOpen key nonce (aeadSeal key nonce pt aad) aad = some pt := by
  have hct : (xorBytes pt (chachaKeystream key nonce pt.length)).length = pt.length := by
    rw [length_xorBytes, length_chachaKeystream]
    simp
  have hlen := length_aeadSeal key nonce pt aad
  have htake : (aeadSeal key nonce pt aad).take
      ((aeadSeal key nonce pt aad).length - 16) =
      xorBytes pt (chachaKeystream key nonce pt.length) := by
    rw [hlen, show pt.length + 16 - 16 = pt.length from by omega, aeadSeal_red]
    exact List.take_left' hct
  have hdrop : (aeadSeal key nonce pt aad).drop
      ((aeadSeal key nonce pt aad).length - 16) =
      poly1305 (aeadPolyKey key nonce)
        (macData aad (xorBytes pt (chachaKeystream key nonce pt.length))) := by
    rw [hlen, show pt.length + 16 - 16 = pt.length from by omega, aeadSeal_red]
    exact List.drop_left' hct
  simp only [aeadOpen]
  rw [if_neg (show ¬ (aeadSeal key nonce pt aad).length < 16 from by omega)]
  rw [htake, hdrop, if_pos rfl]
  rw [hct, xorBytes_cancel pt _ (le_of_eq (length_chachaKeystream key nonce
    pt.length).symm)]

theorem csOpen_mk (c2 : CipherState) (w : ReplayWindow) (counter : Nat)
    (aad pt : Bytes) (hr : c2.replay = some w) (hc : rwCheck w counter = true) :
    csOpen c2 counter aad
        (aeadSeal c2.key (c2.noncePfx ++ beBytes 8 counter) pt aad) =
      (.ok pt, { c2 with replay := some (rwMark w counter) }) := by
  simp only [csOpen, hr]
  rw [if_neg (show ¬ (!rwCheck w counter) = true from by rw [hc]; decide)]
  simp only [csNonce]
  rw [aeadOpen_aeadSeal]

theorem encodeAndEmit_spec (t : Tunnel) (mt : Nat) (pl : Bytes) :
    encodeAndEmit t mt pl =
      (mkDatagram t.sendCS.key t.sendCS.noncePfx t.sessionID mt
          t.sendCS.sendCounter pl,
        { t with sendCS := { t.sendCS with
            sendCounter := (t.sendCS.sendCounter + 1) % 2 ^ 64 } }) := rfl

theorem decodeDatagram_mk (t2 : Tunnel) (now : Nat) (w : ReplayWindow) (mt c : Nat)
    (pt : Bytes) (hr : t2.recvCS.replay = some w) (hc : rwCheck w c = true)
    (hsid : t2.sessionID < 2 ^ 64) (hc64 : c < 2 ^ 64) (hmt : mt < 256) :
    decodeDatagram t2 now
        (mkDatagram t2.recvCS.key t2.recvCS.noncePfx t2.sessionID mt c pt) =
      (if mt = msgData then (ROut.ok (some pt), t1mk t2 w c)
       else if mt = msgFragment then
         ((reasmPush t2.reasm now pt).1,
           { t1mk t2 w c with reasm := (reasmPush t2.reasm now pt).2 })
       else if mt = msgPing ∨ mt = msgPong then (ROut.ok none, t1mk t2 w c)
       else (ROut.err .unknownType, t1mk t2 w c)) := by
  simp only [decodeDatagram, mkDatagram]
  set hdr : Header := { version := protocolVersion, type := mt, flags := 0
                        sessionID := t2.sessionID, counter := c } with hhdr
  have hwf : hdr.WF :=
    ⟨by show protocolVersion < 256; decide, hmt, by show (0 : Nat) < 256; decide,
      hsid, hc64⟩
  have hparse := parseHeader_roundTrip hdr
    (aeadSeal t2.recvCS.key (t2.recvCS.noncePfx ++ beBytes 8 c) pt
      (writeHeader hdr)) hwf rfl
  rw [hparse]
  dsimp only
  rw [if_neg (show ¬ hdr.sessionID ≠ t2.sessionID from by rw [hhdr]; simp)]
  rw [if_neg (show ¬ (aeadSeal t2.recvCS.key (t2.recvCS.noncePfx ++ beBytes 8 c)
      pt (writeHeader hdr)).length < aeadOverhead from by
    rw [length_aeadSeal]
    simp only [aeadOverhead]
    omega)]
  have htk : ((writeHeader hdr ++ aeadSeal t2.recvCS.key
      (t2.recvCS.noncePfx ++ beBytes 8 c) pt (writeHeader hdr))).take headerLen =
      writeHeader hdr := List.take_left' (length_writeHeader _)
  rw [htk]
  rw [csOpen_mk t2.recvCS w c (writeHeader hdr) pt hr hc]
  rfl

theorem chunksFrom_tiling (m : Nat) (hm : 0 < m) : ∀ (fuel len offset : Nat),
    len - offset ≤ fuel → offset ≤ len →
    TilingFrom offset (chunksFrom m len offset) len := by
  intro fuel
  induction fuel with
  | zero =>
    intro len offset hf hle
    rw [chunksFrom, dif_neg (by omega)]
    simp only [TilingFrom]
    omega
  | succ f ih =>
    intro len offset hf hle
    rw [chunksFrom]
    by_cases h : offset < len ∧ 0 < m
    · rw [dif_pos h]
      simp only [TilingFrom]
      refine ⟨by simp, by omega, ?_⟩
      rw [show offset + (min (offset + m) len - offset) = min (offset + m) len from
        by omega]
      exact ih len (min (offset + m) len) (by omega) (by omega)
    · rw [dif_neg h]
      simp only [TilingFrom]
      omega

theorem chunksFrom_count_le (m : Nat) : ∀ (j len offset : Nat), 0 < m →
    len ≤ offset + m * j → (chunksFrom m len offset).length ≤ j := by
  intro j
  induction j with
  | zero =>
    intro len offset _ hlen
    rw [chunksFrom, dif_neg (by omega)]
    simp
  | succ j ih =>
    intro len offset hm hlen
    have hmj : m * (j + 1) = m * j + m := by ring
    rw [chunksFrom]
    by_cases h : offset < len ∧ 0 < m
    · rw [dif_pos h, List.length_cons]
      have := ih len (min (offset + m) len) hm (by omega)
      omega
    · rw [dif_neg h]
      simp

theorem chunksFrom_count_lb (m : Nat) : ∀ (j len offset : Nat), 0 < m →
    offset + m * j < len → j < (chunksFrom m len offset).length := by
  intro j
  induction j with
  | zero =>
    intro len offset hm hlen
    rw [chunksFrom, dif_pos ⟨by omega, hm⟩]
    simp
  | succ j ih =>
    intro len offset hm hlen
    have hmj : m * (j + 1) = m * j + m := by ring
    rw [chunksFrom, dif_pos ⟨by omega, hm⟩, List.length_cons]
    have := ih len (min (offset + m) len) hm (by omega)
    omega

theorem ctrItems_facts : ∀ (L : List (Nat × Nat)) (c0 : Nat),
    c0 + L.length < 2 ^ 64 →
    (ctrItems c0 L).map Prod.snd = L ∧
    (∀ it ∈ ctrItems c0 L, c0 ≤ it.1 ∧ it.1 < c0 + L.length) ∧
    ((ctrItems c0 L).map Prod.fst).Nodup ∧
    (ctrItems c0 L).length = L.length := by
  intro L
  induction L with
  | nil =>
    intro c0 _
    exact ⟨rfl, by simp [ctrItems], by simp [ctrItems], rfl⟩
  | cons s rest ih =>
    intro c0 h
    have hlen : (s :: rest : List (Nat × Nat)).length = rest.length + 1 := by simp
    have hmod : (c0 + 1) % 2 ^ 64 = c0 + 1 := Nat.mod_eq_of_lt (by omega)
    obtain ⟨ih1, ih2, ih3, ih4⟩ := ih (c0 + 1) (by omega)
    refine ⟨?_, ?_, ?_, ?_⟩
    · simp only [ctrItems, List.map_cons, hmod]
      rw [ih1]
    · intro it hit
      simp only [ctrItems, hmod] at hit
      rcases List.mem_cons.mp hit with rfl | hit'
      · exact ⟨Nat.le_refl _, by rw [hlen]; omega⟩
      · have := ih2 it hit'
        rw [hlen]
        omega
    · simp only [ctrItems, List.map_cons, hmod]
      refine List.nodup_cons.mpr ⟨?_, ih3⟩
      intro hmem
      obtain ⟨it, hit, heq⟩ := List.mem_map.mp hmem
      have := ih2 it hit
      omega
    · simp only [ctrItems, List.length_cons, hmod, ih4]

theorem encodeFragLoop_spec (fid m : Nat) (p : Bytes) :
    ∀ (fuel offset : Nat) (t : Tunnel), p.length - offset ≤ fuel →
    (encodeFragLoop t fid m p offset).2 =
      (ctrItems t.sendCS.sendCounter (chunksFrom m p.length offset)).map
        (fun it => mkDatagram t.sendCS.key t.sendCS.noncePfx t.sessionID
          msgFragment it.1 (mkFragBytes fid p it.2)) := by
  intro fuel
  induction fuel with
  | zero =>
    intro offset t hf
    rw [encodeFragLoop, chunksFrom, dif_neg (by omega), dif_neg (by omega)]
    rfl
  | succ f ih =>
    intro offset t hf
    rw [encodeFragLoop, chunksFrom]
    by_cases h : offset < p.length ∧ 0 < m
    · rw [dif_pos h, dif_pos h]
      simp only [ctrItems, List.map_cons]
      show (encodeAndEmit t msgFragment (writeFragmentHeader fid offset p.length ++
          ((p.drop offset).take (min (offset + m) p.length - offset)))).1 ::
        (encodeFragLoop (encodeAndEmit t msgFragment (writeFragmentHeader fid offset
            p.length ++ ((p.drop offset).take (min (offset + m) p.length -
            offset)))).2 fid m p (min (offset + m) p.length)).2 = _
      rw [ih (min (offset + m) p.length)
        (encodeAndEmit t msgFragment (writeFragmentHeader fid offset p.length ++
          ((p.drop offset).take (min (offset + m) p.length - offset)))).2
        (by omega)]
      rw [encodeAndEmit_spec]
      rfl
    · rw [dif_neg h, dif_neg h]
      rfl

theorem encodePacket_frag_spec (t : Tunnel) (p : Bytes)
    (h1 : payloadMTU t < (p.length : Int)) (h2 : 0 < fragmentPayloadMTU t) :
    encodePacket t p = .ok
      ((encodeFragLoop { t with fragID := (t.fragID + 1) % 2 ^ 32 }
          ((t.fragID + 1) % 2 ^ 32) (fragmentPayloadMTU t).toNat p 0).1,
        (ctrItems t.sendCS.sendCounter
            (chunksFrom (fragmentPayloadMTU t).toNat p.length 0)).map
          (fun it => mkDatagram t.sendCS.key t.sendCS.noncePfx t.sessionID
            msgFragment it.1 (mkFragBytes ((t.fragID + 1) % 2 ^ 32) p it.2))) := by
  have hp : 0 < payloadMTU t := by
    have hfp : fragmentPayloadMTU t = payloadMTU t - (fragHeaderLen : Int) := rfl
    rw [hfp] at h2
    simp only [fragHeaderLen] at h2
    omega
  simp only [encodePacket]
  rw [if_neg (show ¬ payloadMTU t ≤ 0 from by omega)]
  rw [if_neg (show ¬ (p.length : Int) ≤ payloadMTU t from by omega)]
  rw [if_neg (show ¬ fragmentPayloadMTU t ≤ 0 from by omega)]
  have hs := encodeFragLoop_spec ((t.fragID + 1) % 2 ^ 32)
    (fragmentPayloadMTU t).toNat p p.length 0
    { t with fragID := (t.fragID + 1) % 2 ^ 32 } (by omega)
  rw [← hs]

theorem encodePacket_one_spec (t : Tunnel) (p : Bytes)
    (h1 : 0 < payloadMTU t) (h2 : (p.length : Int) ≤ payloadMTU t) :
    encodePacket t p = .ok
      ({ t with sendCS := { t.sendCS with
          sendCounter := (t.sendCS.sendCounter + 1) % 2 ^ 64 } },
        [mkDatagram t.sendCS.key t.sendCS.noncePfx t.sessionID msgData
          t.sendCS.sendCounter p]) := by
  simp only [encodePacket]
  rw [if_neg (show ¬ payloadMTU t ≤ 0 from by omega), if_pos h2]
  rw [encodeAndEmit_spec]

theorem rwInv_fresh (W : Nat) (hW : 0 < W) : rwInv (newReplayWindow W) [] := by
  rw [newReplayWindow_red W hW]
  left
  exact ⟨rfl, rfl, fun o _ => rwIsSet_replicate_zero _ o⟩

theorem decodeAll_nil (t : Tunnel) (now : Nat) : decodeAll t now [] = (t, []) := rfl

theorem decodeAll_cons (t : Tunnel) (now : Nat) (d : Bytes) (ds : List Bytes) :
    decodeAll t now (d :: ds) =
      ((decodeAll (decodeDatagram t now d).2 now ds).1,
        (decodeDatagram t now d).1 ::
          (decodeAll (decodeDatagram t now d).2 now ds).2) := rfl

theorem decodeAll_frag_run (p : Bytes) (fid now : Nat) (PT : List (Nat × Nat))
    (key np : Bytes) (sid : Nat)
    (hT : TilingFrom 0 PT p.length) (hn : 0 < p.length) (hn32 : p.length < 2 ^ 32)
    (hfid : fid < 2 ^ 32) (hsid64 : sid < 2 ^ 64) :
    ∀ (IT : List (Nat × (Nat × Nat))) (S : List Nat) (D : List (Nat × Nat))
      (t2 : Tunnel) (w : ReplayWindow),
      t2.recvCS.key = key → t2.recvCS.noncePfx = np → t2.sessionID = sid →
      t2.recvCS.replay = some w → w.WF → rwInv w S →
      2 ≤ t2.reasm.maxEntries →
      (t2.reasm.maxTotal = 0 ∨ p.length ≤ t2.reasm.maxTotal) →
      RInv t2.reasm p fid D →
      ((IT.map Prod.fst).Nodup) →
      (∀ it ∈ IT, it.1 ∉ S) →
      (∀ it ∈ IT, it.1 + w.size < 2 ^ 64) →
      (∀ it ∈ IT, ∀ s ∈ S, s < it.1 + w.size) →
      (∀ it ∈ IT, ∀ jt ∈ IT, jt.1 < it.1 + w.size) →
      (D ++ IT.map Prod.snd).Perm PT →
      IT ≠ [] →
      (decodeAll t2 now (IT.map (fun it =>
          mkDatagram key np sid msgFragment it.1 (mkFragBytes fid p it.2)))).2 =
        List.replicate (IT.length - 1) (ROut.ok none) ++ [ROut.ok (some p)] := by
  intro IT
  induction IT with
  | nil =>
    intro S D t2 w _ _ _ _ _ _ _ _ _ _ _ _ _ _ _ hne
    exact absurd rfl hne
  | cons it IT' ih =>
    intro S D t2 w hkey hnp hsidv hr hwf hinv hME hMT hrinv hnd hnotS hlt hnearS
      hnearL hperm _
    have hitit : it ∈ it :: IT' := by simp
    have hchk : rwCheck w it.1 = true :=
      rwCheck_true_of_inv w S it.1 hwf hinv (hnotS it hitit) (hlt it hitit)
        (fun s hs => hnearS it hitit s hs)
    have hc64 : it.1 < 2 ^ 64 := by
      have h1 := hlt it hitit
      have h2 := hwf.1
      omega
    have hdg : mkDatagram key np sid msgFragment it.1 (mkFragBytes fid p it.2) =
        mkDatagram t2.recvCS.key t2.recvCS.noncePfx t2.sessionID msgFragment it.1
          (mkFragBytes fid p it.2) := by
      rw [hkey, hnp, hsidv]
    rw [List.map_cons, decodeAll_cons, hdg,
      decodeDatagram_mk t2 now w msgFragment it.1 (mkFragBytes fid p it.2) hr hchk
        (by rw [hsidv]; exact hsid64) hc64 (by decide)]
    rw [if_neg (by decide : ¬ msgFragment = msgData), if_pos rfl]
    -- the piece pushed this step
    have hpc : it.2 ∈ PT := hperm.mem_iff.mp (by simp)
    have hpb := tiling_mem PT 0 p.length hT it.2 hpc
    have hpair : (D ++ (it :: IT').map Prod.snd).Pairwise
        (fun a b => a.1 + a.2 ≤ b.1 ∨ b.1 + b.2 ≤ a.1) := by
      have h1 : PT.Pairwise (fun a b => a.1 + a.2 ≤ b.1 ∨ b.1 + b.2 ≤ a.1) :=
        (tiling_pairwise PT 0 p.length hT).imp (fun h => Or.inl h)
      exact (hperm.pairwise_iff (fun hxy => Or.symm hxy)).mpr h1
    have hdisj : ∀ d ∈ D, d.1 + d.2 ≤ it.2.1 ∨ it.2.1 + it.2.2 ≤ d.1 := by
      intro d hd
      exact (List.pairwise_append.mp hpair).2.2 d hd it.2 (by simp)
    have step := reasmPush_step t2.reasm p fid D it.2 now hME hMT hn hn32 hfid
      hrinv hpb.2.1 hpb.2.2 hdisj
    cases IT' with
    | nil =>
      have hperm1 : (it.2 :: D).Perm PT := by
        refine List.Perm.trans ?_ hperm
        exact (List.perm_append_singleton it.2 D).symm
      have hpush := step.2 PT hT hperm1
      rw [hpush]
      rfl
    | cons it2 IT2 =>
      have hp2 : it2.2 ∈ PT := hperm.mem_iff.mp (by simp)
      have hp2b := tiling_mem PT 0 p.length hT it2.2 hp2
      have hlts : lensSum (it.2 :: D) < p.length := by
        have e0 := tiling_lensSum PT 0 p.length hT
        have e1 := lensSum_perm hperm
        have eA := lensSum_append D ((it :: it2 :: IT2).map Prod.snd)
        have eB : lensSum ((it :: it2 :: IT2).map Prod.snd) =
            it.2.2 + (it2.2.2 + lensSum (IT2.map Prod.snd)) := by
          simp only [List.map_cons, lensSum_cons]
        have eC := lensSum_cons it.2 D
        have e6 := hp2b.2.1
        omega
      obtain ⟨st2, hpush, hE2⟩ := step.1 hlts
      rw [hpush]
      have hwf' := rwMark_WF w it.1 hwf hc64
      have hinv' : rwInv (rwMark w it.1) (it.1 :: S) :=
        rwInv_mark w S it.1 hwf hinv (hnotS it hitit)
          (fun s hs => hnearS it hitit s hs)
      have hszw : (rwMark w it.1).size = w.size := hwf'.2.1
      have hperm2 : ((it.2 :: D) ++ (it2 :: IT2).map Prod.snd).Perm PT := by
        have hmid : ((it.2 :: D) ++ (it2 :: IT2).map Prod.snd).Perm
            (D ++ (it :: it2 :: IT2).map Prod.snd) := by
          simp only [List.map_cons]
          exact List.perm_middle.symm
        exact hmid.trans hperm
      have hndc : it.1 ∉ (it2 :: IT2).map Prod.fst ∧
          ((it2 :: IT2).map Prod.fst).Nodup := by
        have h0 : (it.1 :: (it2 :: IT2).map Prod.fst).Nodup := hnd
        exact ⟨(List.nodup_cons.mp h0).1, (List.nodup_cons.mp h0).2⟩
      have ihh := ih (it.1 :: S) (it.2 :: D)
        { t2 with recvCS := { t2.recvCS with replay := some (rwMark w it.1) }
                  reasm := { t2.reasm with frags := [(fid, st2)] } }
        (rwMark w it.1) hkey hnp hsidv rfl hwf'.1 hinv' hME hMT
        (Or.inr ⟨by simp, st2, rfl, hE2⟩)
        hndc.2
        (by
          intro jt hjt
          rw [List.mem_cons]
          rintro (heq | hjS)
          · exact hndc.1 (by
              rw [← heq]
              exact List.mem_map_of_mem _ hjt)
          · exact hnotS jt (List.mem_cons_of_mem _ hjt) hjS)
        (by
          intro jt hjt
          rw [hszw]
          exact hlt jt (List.mem_cons_of_mem _ hjt))
        (by
          intro jt hjt s hsmem
          rw [hszw]
          rcases List.mem_cons.mp hsmem with rfl | hsS
          · exact hnearL jt (List.mem_cons_of_mem _ hjt) it hitit
          · exact hnearS jt (List.mem_cons_of_mem _ hjt) s hsS)
        (by
          intro jt hjt kt hkt
          rw [hszw]
          exact hnearL jt (List.mem_cons_of_mem _ hjt) kt
            (List.mem_cons_of_mem _ hkt))
        hperm2 (by simp)
      show ROut.ok none :: (decodeAll
          { t2 with recvCS := { t2.recvCS with replay := some (rwMark w it.1) }
                    reasm := { t2.reasm with frags := [(fid, st2)] } } now
          ((it2 :: IT2).map (fun jt =>
            mkDatagram key np sid msgFragment jt.1 (mkFragBytes fid p jt.2)))).2 = _
      rw [ihh]
      rw [show (it :: it2 :: IT2 : List (Nat × (Nat × Nat))).length - 1 =
        ((it2 :: IT2 : List (Nat × (Nat × Nat))).length - 1) + 1 from by simp]
      rw [List.replicate_succ, List.cons_append]

theorem ctrItems_length : ∀ (L : List (Nat × Nat)) (c0 : Nat),
    (ctrItems c0 L).length = L.length
  | [], _ => rfl
  | s :: rest, c0 => by
    simp only [ctrItems, List.length_cons, ctrItems_length rest]

/-- C1: with matching cipher states (same key and nonce prefix, equal
session ids), a fresh send counter, a fresh receive replay window of
width at least 16 and a fresh reassembler: (a) a payload that fits the
plaintext MTU is emitted as one `Data` datagram whose decode returns
exactly the payload; (b) a payload needing fragmentation, of length at
most 16 fragment-plaintext-MTUs, is emitted as one `Fragment` datagram
per chunk, and feeding the datagrams to the peer in any delivery order
returns the payload exactly once — the completing datagram yields `p`
and every other one yields an empty result; and (c) with MTU 400 and a
2000-byte payload, `EncodePacket` emits at least 6 fragment
datagrams. -/
theorem tunnelRoundTrip (t t2 : Tunnel) (p : Bytes) (W now : Nat)
    (hc0 : t.sendCS.sendCounter = 0)
    (hkey : t2.recvCS.key = t.sendCS.key)
    (hnp : t2.recvCS.noncePfx = t.sendCS.noncePfx)
    (hsid : t2.sessionID = t.sessionID)
    (hsid64 : t.sessionID < 2 ^ 64)
    (hrw : t2.recvCS.replay = some (newReplayWindow W))
    (hW : 16 ≤ W) (hW64 : W + 16 < 2 ^ 64)
    (hfr : t2.reasm.frags = [])
    (hME : 2 ≤ t2.reasm.maxEntries)
    (hMT : t2.reasm.maxTotal = 0 ∨ p.length ≤ t2.reasm.maxTotal)
    (hn : 0 < p.length) (hn32 : p.length < 2 ^ 32) :
    ((p.length : Int) ≤ payloadMTU t → 0 < payloadMTU t →
      ∃ t3, encodePacket t p = .ok (t3,
          [mkDatagram t.sendCS.key t.sendCS.noncePfx t.sessionID msgData 0 p]) ∧
        (decodeAll t2 now
            [mkDatagram t.sendCS.key t.sendCS.noncePfx t.sessionID msgData 0 p]).2 =
          [ROut.ok (some p)]) ∧
    (payloadMTU t < (p.length : Int) → 0 < fragmentPayloadMTU t →
      (p.length : Int) ≤ 16 * fragmentPayloadMTU t →
      ∃ t3, encodePacket t p = .ok (t3,
          (ctrItems 0 (chunksFrom (fragmentPayloadMTU t).toNat p.length 0)).map
            (fun it => mkDatagram t.sendCS.key t.sendCS.noncePfx t.sessionID
              msgFragment it.1 (mkFragBytes ((t.fragID + 1) % 2 ^ 32) p it.2))) ∧
        ∀ IT : List (Nat × (Nat × Nat)), IT.Perm (ctrItems 0
            (chunksFrom (fragmentPayloadMTU t).toNat p.length 0)) →
          (decodeAll t2 now (IT.map (fun it =>
              mkDatagram t.sendCS.key t.sendCS.noncePfx t.sessionID msgFragment
                it.1 (mkFragBytes ((t.fragID + 1) % 2 ^ 32) p it.2)))).2 =
            List.replicate (IT.length - 1) (ROut.ok none) ++ [ROut.ok (some p)]) ∧
    (∀ (t4 : Tunnel) (q : Bytes), t4.mtu = 400 → q.length = 2000 →
      ∃ t5 ds, encodePacket t4 q = .ok (t5, ds) ∧ 6 ≤ ds.length) := by
  have hWpos : 0 < W := by omega
  have hwWF := newReplayWindow_WF W hWpos
  refine ⟨?_, ?_, ?_⟩
  · -- single Data datagram
    intro hle hpos
    have hspec := encodePacket_one_spec t p hpos hle
    rw [hc0] at hspec
    refine ⟨_, hspec, ?_⟩
    have hdg : mkDatagram t.sendCS.key t.sendCS.noncePfx t.sessionID msgData 0 p =
        mkDatagram t2.recvCS.key t2.recvCS.noncePfx t2.sessionID msgData 0 p := by
      rw [hkey, hnp, hsid]
    rw [decodeAll_cons, hdg,
      decodeDatagram_mk t2 now (newReplayWindow W) msgData 0 p hrw
        (rwCheck_fresh W 0) (by rw [hsid]; exact hsid64)
        (by positivity) (by decide)]
    rw [if_pos rfl]
    rfl
  · -- fragmented payload, arbitrary delivery order
    intro hbig hfrag h16
    have hm : 0 < (fragmentPayloadMTU t).toNat := by omega
    have hmle : p.length ≤ 0 + (fragmentPayloadMTU t).toNat * 16 := by omega
    have hT := chunksFrom_tiling (fragmentPayloadMTU t).toNat hm p.length p.length 0
      (by omega) (by omega)
    have hk16 : (chunksFrom (fragmentPayloadMTU t).toNat p.length 0).length ≤ 16 :=
      chunksFrom_count_le (fragmentPayloadMTU t).toNat 16 p.length 0 hm hmle
    have hkpos : 0 < (chunksFrom (fragmentPayloadMTU t).toNat p.length 0).length := by
      have := chunksFrom_count_lb (fragmentPayloadMTU t).toNat 0 p.length 0 hm
        (by omega)
      omega
    have hcf := ctrItems_facts (chunksFrom (fragmentPayloadMTU t).toNat p.length 0) 0
      (by omega)
    have hspec := encodePacket_frag_spec t p hbig hfrag
    rw [hc0] at hspec
    refine ⟨_, hspec, ?_⟩
    intro IT hperm
    have hfid : (t.fragID + 1) % 2 ^ 32 < 2 ^ 32 := Nat.mod_lt _ (by positivity)
    have hmem : ∀ it ∈ IT,
        it ∈ ctrItems 0 (chunksFrom (fragmentPayloadMTU t).toNat p.length 0) :=
      fun it hit => hperm.mem_iff.mp hit
    have hbound : ∀ it ∈ IT,
        it.1 < (chunksFrom (fragmentPayloadMTU t).toNat p.length 0).length := by
      intro it hit
      have := hcf.2.1 it (hmem it hit)
      omega
    refine decodeAll_frag_run p ((t.fragID + 1) % 2 ^ 32) now
      (chunksFrom (fragmentPayloadMTU t).toNat p.length 0)
      t.sendCS.key t.sendCS.noncePfx t.sessionID hT hn hn32 hfid hsid64
      IT [] [] t2 (newReplayWindow W) hkey hnp hsid hrw hwWF.1
      (rwInv_fresh W hWpos) hME hMT (Or.inl ⟨rfl, hfr⟩)
      ((hperm.map Prod.fst).nodup_iff.mpr hcf.2.2.1)
      (by simp)
      (by
        intro it hit
        rw [hwWF.2]
        have := hbound it hit
        omega)
      (by
        intro it hit s hs
        simp at hs)
      (by
        intro it hit jt hjt
        rw [hwWF.2]
        have h1 := hbound jt hjt
        omega)
      ?_ ?_
    · show (IT.map Prod.snd).Perm _
      refine (hperm.map Prod.snd).trans ?_
      rw [hcf.1]
    · intro h0
      rw [h0] at hperm
      have := hperm.length_eq
      rw [ctrItems_length] at this
      simp at this
      omega
  · -- MTU 400, 2000-byte payload: at least 6 fragments
    intro t4 q hmtu hq
    have hPM : payloadMTU t4 = 362 := by
      simp [payloadMTU, hmtu, headerLen, aeadOverhead]
    have hFM : fragmentPayloadMTU t4 = 350 := by
      simp [fragmentPayloadMTU, hPM, fragHeaderLen]
    have hbig : payloadMTU t4 < (q.length : Int) := by
      rw [hPM, hq]
      norm_num
    have hfrag : 0 < fragmentPayloadMTU t4 := by
      rw [hFM]
      norm_num
    have hspec := encodePacket_frag_spec t4 q hbig hfrag
    refine ⟨_, _, hspec, ?_⟩
    rw [List.length_map, ctrItems_length]
    have h6 : 5 < (chunksFrom (fragmentPayloadMTU t4).toNat q.length 0).length := by
      apply chunksFrom_count_lb (fragmentPayloadMTU t4).toNat 5 q.length 0
        (by rw [hFM]; decide)
      rw [hFM, hq]
      decide
    omega

theorem tunnelRoundTrip_witness :
    (demoSender.sendCS.sendCounter = 0 ∧
      demoReceiver.recvCS.key = demoSender.sendCS.key ∧
      demoReceiver.recvCS.noncePfx = demoSender.sendCS.noncePfx ∧
      demoReceiver.sessionID = demoSender.sessionID ∧
      demoSender.sessionID < 2 ^ 64 ∧
      demoReceiver.recvCS.replay = some (newReplayWindow 16) ∧
      (16 : Nat) ≤ 16 ∧ 16 + 16 < 2 ^ 64 ∧
      demoReceiver.reasm.frags = [] ∧
      2 ≤ demoReceiver.reasm.maxEntries ∧
      (demoReceiver.reasm.maxTotal = 0 ∨
        (List.replicate 120 7 : Bytes).length ≤ demoReceiver.reasm.maxTotal) ∧
      0 < (List.replicate 120 7 : Bytes).length ∧
      (List.replicate 120 7 : Bytes).length < 2 ^ 32 ∧
      ({ demoSender with mtu := 400 } : Tunnel).mtu = 400 ∧
      (List.replicate 2000 1 : Bytes).length = 2000) ∧
    (∃ t5 ds, encodePacket { demoSender with mtu := 400 } (List.replicate 2000 1) =
        .ok (t5, ds) ∧ 6 ≤ ds.length) :=
  ⟨⟨rfl, rfl, rfl, rfl, by decide, rfl, by decide, by decide, by decide, by decide,
    by decide, by decide, by decide, rfl, List.length_replicate 2000 1⟩,
    (tunnelRoundTrip demoSender demoReceiver (List.replicate 120 7) 16 0 rfl rfl rfl
      rfl (by decide) rfl (by decide) (by decide) (by decide) (by decide)
      (by decide) (by decide) (by decide)).2.2
      { demoSender with mtu := 400 } (List.replicate 2000 1) rfl
      (List.length_replicate 2000 1)⟩

end QDT
